import Mathlib

/-!
Verification development for the pkms repository.

Shallow embedding of the core data model and operations:
strings are modeled as lists of characters (`Str`), so that the string
manipulation done by the Python source (slicing, splitting, joining)
becomes ordinary list manipulation that can be reasoned about by
induction and evaluated by `decide` on concrete inputs.

Components embedded here, each translated from the named source file:
 - `FileLocation` path-segment algebra           (core/model/_FileLocation.py)
 - `SimpleFileLocationMatcher.find_match`        (core/utility/_SimpleFileLocationMatcher.py)
 - `Sqlite3Upserter.upsert` / `transaction`      (upserter/_Sqlite3Upserter.py)
 - `wrap_text_search_query` / `search`           (component/searcher/_Sqlite3Searcher.py)
 - `UriResolver.resolve`                         (component/resolver/_UriResolver.py)
 - `SimpleScreener.screen` / `parse_file_name`   (component/screener/_SimpleScreener.py,
                                                  core/utility/__init__.py)
-/

set_option autoImplicit false

namespace PKMS

/-- Python strings, modeled as lists of characters. -/
abbrev Str := List Char

instance {α β : Type} [DecidableEq α] [DecidableEq β] :
    DecidableEq (Except α β) := fun a b =>
  match a, b with
  | .ok x, .ok y =>
    if h : x = y then .isTrue (by rw [h]) else .isFalse (by simp [h])
  | .error x, .error y =>
    if h : x = y then .isTrue (by rw [h]) else .isFalse (by simp [h])
  | .ok _, .error _ => .isFalse (by simp)
  | .error _, .ok _ => .isFalse (by simp)

/-- Python `str.split(sep)` for a one-character separator: splits at every
occurrence of `sep`, keeping empty pieces; `''.split(sep) == ['']`. -/
def splitOnChar (sep : Char) : Str → List Str
  | [] => [[]]
  | c :: cs =>
    if c = sep then [] :: splitOnChar sep cs
    else
      match splitOnChar sep cs with
      | [] => [[c]]
      | w :: ws => (c :: w) :: ws

/-- Python `sep.join(pieces)` for a one-character separator. -/
def joinWith (sep : Char) : List Str → Str
  | [] => []
  | [x] => x
  | x :: y :: xs => x ++ sep :: joinWith sep (y :: xs)

theorem splitOnChar_ne_nil (sep : Char) (s : Str) : splitOnChar sep s ≠ [] := by
  induction s with
  | nil => simp [splitOnChar]
  | cons c cs ih =>
    simp only [splitOnChar]
    split
    · simp
    · cases h : splitOnChar sep cs <;> simp

theorem splitOnChar_cons_of_ne (sep c : Char) (cs w : Str) (ws : List Str)
    (hc : ¬ c = sep) (hs : splitOnChar sep cs = w :: ws) :
    splitOnChar sep (c :: cs) = (c :: w) :: ws := by
  simp [splitOnChar, hc, hs]

theorem not_mem_of_mem_splitOnChar (sep : Char) :
    ∀ (s : Str), ∀ piece ∈ splitOnChar sep s, sep ∉ piece := by
  intro s
  induction s with
  | nil =>
    intro piece hp
    simp only [splitOnChar, List.mem_singleton] at hp
    subst hp
    simp
  | cons c cs ih =>
    intro piece hp
    by_cases hc : c = sep
    · rw [show splitOnChar sep (c :: cs) = [] :: splitOnChar sep cs by
          simp [splitOnChar, hc]] at hp
      rcases List.mem_cons.mp hp with rfl | h2
      · simp
      · exact ih piece h2
    · rcases hsplit : splitOnChar sep cs with _ | ⟨w, ws⟩
      · exact absurd hsplit (splitOnChar_ne_nil sep cs)
      · rw [splitOnChar_cons_of_ne sep c cs w ws hc hsplit] at hp
        rcases List.mem_cons.mp hp with rfl | h2
        · intro hmem
          rcases List.mem_cons.mp hmem with h3 | h3
          · exact hc h3.symm
          · exact ih w (hsplit ▸ List.mem_cons_self w ws) h3
        · exact ih piece (hsplit ▸ List.mem_cons_of_mem w h2)

theorem splitOnChar_no_sep (sep : Char) (x : Str) (hx : sep ∉ x) :
    splitOnChar sep x = [x] := by
  induction x with
  | nil => rfl
  | cons c cs ih =>
    simp only [List.mem_cons, not_or] at hx
    have hc : ¬ c = sep := fun h => hx.1 h.symm
    exact splitOnChar_cons_of_ne sep c cs cs [] hc (ih hx.2)

theorem splitOnChar_append_sep (sep : Char) (x r : Str) (hx : sep ∉ x) :
    splitOnChar sep (x ++ sep :: r) = x :: splitOnChar sep r := by
  induction x with
  | nil => simp [splitOnChar]
  | cons c cs ih =>
    simp only [List.mem_cons, not_or] at hx
    have hc : ¬ c = sep := fun h => hx.1 h.symm
    have ih' := ih hx.2
    rcases hsplit : splitOnChar sep r with _ | ⟨w, ws⟩
    · exact absurd hsplit (splitOnChar_ne_nil sep r)
    · rw [hsplit] at ih'
      rw [List.cons_append, splitOnChar_cons_of_ne sep c (cs ++ sep :: r) cs
        (w :: ws) hc ih']

theorem splitOnChar_joinWith (sep : Char) (cs : List Str) (hne : cs ≠ [])
    (hsep : ∀ c ∈ cs, sep ∉ c) :
    splitOnChar sep (joinWith sep cs) = cs := by
  induction cs with
  | nil => exact absurd rfl hne
  | cons x xs ih =>
    cases xs with
    | nil => exact splitOnChar_no_sep sep x (hsep x (List.mem_singleton.mpr rfl))
    | cons y ys =>
      have hx : sep ∉ x := hsep x (List.mem_cons_self _ _)
      simp only [joinWith]
      rw [splitOnChar_append_sep sep x _ hx]
      congr 1
      exact ih (by simp) (fun c hc => hsep c (List.mem_cons_of_mem x hc))

/-! ## FileLocation (core/model/_FileLocation.py)

A `PathSegment` is `str | None`; `none` in position 0 marks an absolute
path. -/

/-- A URI path segment (`PathSegment` in the source): `none` marks the
absolute-path marker, only legal in position 0. -/
abbrev Seg := Option Str

/-- The `path_convention` literal of the source: `"posix" | "windows"`. -/
inductive PathConvention
  | posix
  | windows
deriving DecidableEq, Repr

/-- The `FileLocation` pydantic model: scheme, nullable authority, and a
base/sub split of the path segments. -/
structure FileLocation where
  scheme : Str
  authority : Option Str
  base_segments : List Seg
  sub_segments : List Seg
deriving DecidableEq, Repr

namespace FileLocation

/-- `FileLocation._segments_is_absolute`: Python truthiness of
`segments and segments[0] is None`. -/
def segments_is_absolute (segments : List Seg) : Bool :=
  match segments with
  | none :: _ => true
  | _ => false

/-- `FileLocation.segments_join`: `s2` if it is absolute, else `s1 + s2`. -/
def segments_join (s1 s2 : List Seg) : List Seg :=
  if segments_is_absolute s2 then s2 else s1 ++ s2

/-- The derived `segments` property: `segments_join(base, sub)`. -/
def segments (fl : FileLocation) : List Seg :=
  segments_join fl.base_segments fl.sub_segments

end FileLocation

/-! ## SimpleFileLocationMatcher (core/utility/_SimpleFileLocationMatcher.py) -/

namespace SimpleFileLocationMatcher

open FileLocation

/-- Loop body of `find_match_index`, translated from the Python `for`
loop over `enumerate(self.file_locations)`: `i` is the current index,
`best_index`/`best_len` the running state (with `best_len` starting at
`-1`, hence an integer). -/
def find_match_index_aux (target : FileLocation) :
    Nat → Option Nat → Int → List FileLocation → Option Nat
  | _, best_index, _, [] => best_index
  | i, best_index, best_len, c :: cs =>
    if c.scheme ≠ target.scheme then
      find_match_index_aux target (i+1) best_index best_len cs
    else if c.authority ≠ target.authority then
      find_match_index_aux target (i+1) best_index best_len cs
    else if c.segments.length > target.segments.length then
      find_match_index_aux target (i+1) best_index best_len cs
    else if target.segments.take c.segments.length = c.segments then
      if (c.segments.length : Int) > best_len then
        find_match_index_aux target (i+1) (some i) (c.segments.length : Int) cs
      else
        find_match_index_aux target (i+1) best_index best_len cs
    else
      find_match_index_aux target (i+1) best_index best_len cs

/-- `SimpleFileLocationMatcher.find_match_index`. -/
def find_match_index (file_locations : List FileLocation)
    (file_location : FileLocation) : Option Nat :=
  find_match_index_aux file_location 0 none (-1) file_locations

/-- `SimpleFileLocationMatcher.find_match`: index the candidate list with
the result of `find_match_index` (always in range when not `None`). -/
def find_match (file_locations : List FileLocation)
    (file_location : FileLocation) : Option FileLocation :=
  match find_match_index file_locations file_location with
  | some i => file_locations.get? i
  | none => none

/-- A candidate qualifies for the target: same scheme, same authority,
and its segments are a prefix of the target's segments (the loop's
slice-equality test `target_segments[:len(candidate_segments)] ==
candidate_segments`; the preceding length test is subsumed). -/
def matches_target (candidate target : FileLocation) : Prop :=
  candidate.scheme = target.scheme ∧ candidate.authority = target.authority ∧
  target.segments.take candidate.segments.length = candidate.segments

instance (c t : FileLocation) : Decidable (matches_target c t) := by
  unfold matches_target; infer_instance

/-- The loop never loses a `some` best index. -/
theorem aux_ne_none (target : FileLocation) :
    ∀ (cs : List FileLocation) (i j : Nat) (bl : Int),
      find_match_index_aux target i (some j) bl cs ≠ none := by
  intro cs
  induction cs with
  | nil => intro i j bl; simp [find_match_index_aux]
  | cons c cs ih =>
    intro i j bl
    simp only [find_match_index_aux]
    split
    · exact ih _ _ _
    split
    · exact ih _ _ _
    split
    · exact ih _ _ _
    split
    · split
      · exact ih _ _ _
      · exact ih _ _ _
    · exact ih _ _ _

/-- Characterization of a `none` result: the incoming best was `none`
and no remaining candidate qualifies with a length above `best_len`. -/
theorem aux_eq_none_iff (target : FileLocation) :
    ∀ (cs : List FileLocation) (i : Nat) (best : Option Nat) (bl : Int),
      (find_match_index_aux target i best bl cs = none ↔
        best = none ∧ ∀ c ∈ cs, matches_target c target →
          (c.segments.length : Int) ≤ bl) := by
  intro cs
  induction cs with
  | nil => intro i best bl; simp [find_match_index_aux]
  | cons c cs ih =>
    intro i best bl
    simp only [find_match_index_aux]
    by_cases h1 : c.scheme = target.scheme
    case neg =>
      rw [if_pos (by simpa using h1)]
      rw [ih]
      constructor
      · rintro ⟨hb, hall⟩
        exact ⟨hb, by
          intro x hx hm
          rcases List.mem_cons.mp hx with rfl | hx'
          · exact absurd hm.1 h1
          · exact hall x hx' hm⟩
      · rintro ⟨hb, hall⟩
        exact ⟨hb, fun x hx hm => hall x (List.mem_cons_of_mem c hx) hm⟩
    rw [if_neg (by simpa using h1)]
    by_cases h2 : c.authority = target.authority
    case neg =>
      rw [if_pos (by simpa using h2)]
      rw [ih]
      constructor
      · rintro ⟨hb, hall⟩
        exact ⟨hb, by
          intro x hx hm
          rcases List.mem_cons.mp hx with rfl | hx'
          · exact absurd hm.2.1 h2
          · exact hall x hx' hm⟩
      · rintro ⟨hb, hall⟩
        exact ⟨hb, fun x hx hm => hall x (List.mem_cons_of_mem c hx) hm⟩
    rw [if_neg (by simpa using h2)]
    by_cases h3 : c.segments.length > target.segments.length
    case pos =>
      rw [if_pos h3]
      rw [ih]
      have hnm : ¬ matches_target c target := by
        rintro ⟨-, -, htake⟩
        have := congrArg List.length htake
        simp [List.length_take] at this
        omega
      constructor
      · rintro ⟨hb, hall⟩
        exact ⟨hb, by
          intro x hx hm
          rcases List.mem_cons.mp hx with rfl | hx'
          · exact absurd hm hnm
          · exact hall x hx' hm⟩
      · rintro ⟨hb, hall⟩
        exact ⟨hb, fun x hx hm => hall x (List.mem_cons_of_mem c hx) hm⟩
    rw [if_neg h3]
    by_cases h4 : target.segments.take c.segments.length = c.segments
    case neg =>
      rw [if_neg h4]
      rw [ih]
      have hnm : ¬ matches_target c target := fun hm => h4 hm.2.2
      constructor
      · rintro ⟨hb, hall⟩
        exact ⟨hb, by
          intro x hx hm
          rcases List.mem_cons.mp hx with rfl | hx'
          · exact absurd hm hnm
          · exact hall x hx' hm⟩
      · rintro ⟨hb, hall⟩
        exact ⟨hb, fun x hx hm => hall x (List.mem_cons_of_mem c hx) hm⟩
    rw [if_pos h4]
    have hm : matches_target c target := ⟨h1, h2, h4⟩
    by_cases h5 : (c.segments.length : Int) > bl
    case pos =>
      rw [if_pos h5]
      constructor
      · intro habs
        exact absurd habs (aux_ne_none target cs (i+1) i _)
      · rintro ⟨-, hall⟩
        have := hall c (List.mem_cons_self _ _) hm
        omega
    case neg =>
      rw [if_neg h5]
      rw [ih]
      constructor
      · rintro ⟨hb, hall⟩
        refine ⟨hb, ?_⟩
        intro x hx hmx
        rcases List.mem_cons.mp hx with rfl | hx'
        · omega
        · exact hall x hx' hmx
      · rintro ⟨hb, hall⟩
        exact ⟨hb, fun x hx hmx => hall x (List.mem_cons_of_mem c hx) hmx⟩

/-- Correctness of the loop for a `some` result: either the incoming
best survives and nothing in the list beats `best_len`, or the result
points at a qualifying candidate of the list that strictly beats
`best_len`, is maximal among qualifying candidates, and is the first
candidate attaining that maximum. -/
theorem aux_sound (target : FileLocation) :
    ∀ (cs : List FileLocation) (i : Nat) (best : Option Nat) (bl : Int) (k : Nat),
      find_match_index_aux target i best bl cs = some k →
      (best = some k ∧ ∀ c ∈ cs, matches_target c target →
          (c.segments.length : Int) ≤ bl) ∨
      (∃ d c, k = i + d ∧ cs.get? d = some c ∧ matches_target c target ∧
        bl < (c.segments.length : Int) ∧
        (∀ c' ∈ cs, matches_target c' target →
          c'.segments.length ≤ c.segments.length) ∧
        (∀ e c', e < d → cs.get? e = some c' → matches_target c' target →
          c'.segments.length < c.segments.length)) := by
  intro cs
  induction cs with
  | nil =>
    intro i best bl k h
    simp only [find_match_index_aux] at h
    exact Or.inl ⟨h, by simp⟩
  | cons c cs ih =>
    intro i best bl k h
    simp only [find_match_index_aux] at h
    -- helper for the "skip this candidate" branches
    have skip :
        (¬ matches_target c target) →
        find_match_index_aux target (i+1) best bl cs = some k →
        (best = some k ∧ ∀ x ∈ c :: cs, matches_target x target →
            ((x.segments.length : Int) ≤ bl)) ∨
        (∃ d x, k = i + d ∧ (c :: cs).get? d = some x ∧ matches_target x target ∧
          bl < (x.segments.length : Int) ∧
          (∀ c' ∈ c :: cs, matches_target c' target →
            c'.segments.length ≤ x.segments.length) ∧
          (∀ e c', e < d → (c :: cs).get? e = some c' → matches_target c' target →
            c'.segments.length < x.segments.length)) := by
      intro hnm hrec
      rcases ih (i+1) best bl k hrec with ⟨hb, hall⟩ | ⟨d, x, hk, hget, hmx, hbl, hmax, hfirst⟩
      · left
        refine ⟨hb, ?_⟩
        intro y hy hmy
        rcases List.mem_cons.mp hy with rfl | hy'
        · exact absurd hmy hnm
        · exact hall y hy' hmy
      · right
        refine ⟨d + 1, x, by omega, by simpa using hget, hmx, hbl, ?_, ?_⟩
        · intro c' hc' hmc'
          rcases List.mem_cons.mp hc' with rfl | hc''
          · exact absurd hmc' hnm
          · exact hmax c' hc'' hmc'
        · intro e c' he hgete hmc'
          cases e with
          | zero =>
            simp at hgete
            subst hgete
            exact absurd hmc' hnm
          | succ e' =>
            exact hfirst e' c' (by omega) (by simpa using hgete) hmc'
    by_cases h1 : c.scheme = target.scheme
    case neg =>
      rw [if_pos (by simpa using h1)] at h
      exact skip (fun hm => h1 hm.1) h
    rw [if_neg (by simpa using h1)] at h
    by_cases h2 : c.authority = target.authority
    case neg =>
      rw [if_pos (by simpa using h2)] at h
      exact skip (fun hm => h2 hm.2.1) h
    rw [if_neg (by simpa using h2)] at h
    by_cases h3 : c.segments.length > target.segments.length
    case pos =>
      rw [if_pos h3] at h
      refine skip ?_ h
      rintro ⟨-, -, htake⟩
      have := congrArg List.length htake
      simp [List.length_take] at this
      omega
    rw [if_neg h3] at h
    by_cases h4 : target.segments.take c.segments.length = c.segments
    case neg =>
      rw [if_neg h4] at h
      exact skip (fun hm => h4 hm.2.2) h
    rw [if_pos h4] at h
    have hm : matches_target c target := ⟨h1, h2, h4⟩
    by_cases h5 : (c.segments.length : Int) > bl
    case pos =>
      rw [if_pos h5] at h
      rcases ih (i+1) (some i) (c.segments.length : Int) k h with
        ⟨hb, hall⟩ | ⟨d, x, hk, hget, hmx, hbl, hmax, hfirst⟩
      · -- the current candidate is the final winner
        have hik := Option.some.inj hb
        right
        refine ⟨0, c, by omega, rfl, hm, h5, ?_, ?_⟩
        · intro c' hc' hmc'
          rcases List.mem_cons.mp hc' with rfl | hc''
          · exact le_refl _
          · have := hall c' hc'' hmc'
            omega
        · intro e c' he _ _
          omega
      · -- a later candidate strictly beat the current one
        right
        refine ⟨d + 1, x, by omega, by simpa using hget, hmx, by omega, ?_, ?_⟩
        · intro c' hc' hmc'
          rcases List.mem_cons.mp hc' with rfl | hc''
          · omega
          · exact hmax c' hc'' hmc'
        · intro e c' he hgete hmc'
          cases e with
          | zero =>
            simp at hgete
            subst hgete
            omega
          | succ e' =>
            exact hfirst e' c' (by omega) (by simpa using hgete) hmc'
    case neg =>
      rw [if_neg h5] at h
      rcases ih (i+1) best bl k h with ⟨hb, hall⟩ | ⟨d, x, hk, hget, hmx, hbl, hmax, hfirst⟩
      · left
        refine ⟨hb, ?_⟩
        intro y hy hmy
        rcases List.mem_cons.mp hy with rfl | hy'
        · omega
        · exact hall y hy' hmy
      · right
        refine ⟨d + 1, x, by omega, by simpa using hget, hmx, hbl, ?_, ?_⟩
        · intro c' hc' hmc'
          rcases List.mem_cons.mp hc' with rfl | hc''
          · omega
          · exact hmax c' hc'' hmc'
        · intro e c' he hgete hmc'
          cases e with
          | zero =>
            simp at hgete
            subst hgete
            omega
          | succ e' =>
            exact hfirst e' c' (by omega) (by simpa using hgete) hmc'

/-- Candidate root `/a` of the spec's router example. -/
def fl_a : FileLocation :=
  { scheme := ['f','i','l','e'], authority := some [],
    base_segments := [none, some ['a']], sub_segments := [] }

/-- Candidate root `/a/b` of the spec's router example. -/
def fl_ab : FileLocation :=
  { scheme := ['f','i','l','e'], authority := some [],
    base_segments := [none, some ['a'], some ['b']], sub_segments := [] }

/-- Target `/a/b/c` of the spec's router example. -/
def fl_abc : FileLocation :=
  { scheme := ['f','i','l','e'], authority := some [],
    base_segments := [none, some ['a'], some ['b'], some ['c']], sub_segments := [] }

/-- C4: `find_match` returns a candidate with the target's scheme and
authority whose segments are a prefix of the target's, of maximal
segment count among qualifying candidates; it returns `none` exactly
when no candidate qualifies; and on candidates `/a`, `/a/b` with target
`/a/b/c` it returns `/a/b`, not `/a`. -/
theorem find_match_correct :
    (∀ (locs : List FileLocation) (target c : FileLocation),
      find_match locs target = some c →
        c ∈ locs ∧ matches_target c target ∧
        ∀ c' ∈ locs, matches_target c' target →
          c'.segments.length ≤ c.segments.length) ∧
    (∀ (locs : List FileLocation) (target : FileLocation),
      find_match locs target = none ↔
        ∀ c' ∈ locs, ¬ matches_target c' target) ∧
    (find_match [fl_a, fl_ab] fl_abc = some fl_ab ∧ fl_ab ≠ fl_a) := by
  refine ⟨?_, ?_, by decide⟩
  · intro locs target c h
    unfold find_match at h
    rcases hidx : find_match_index locs target with _ | k
    · rw [hidx] at h; exact absurd h (by simp)
    · rw [hidx] at h
      rcases aux_sound target locs 0 none (-1) k hidx with ⟨hb, -⟩ | ⟨d, x, hk, hget, hmx, -, hmax, -⟩
      · exact absurd hb (by simp)
      · have hkd : k = d := by omega
        subst hkd
        simp only [hget] at h
        obtain rfl := Option.some.inj h
        exact ⟨List.get?_mem hget, hmx, hmax⟩
  · intro locs target
    constructor
    · intro h c' hc' hm
      unfold find_match at h
      rcases hidx : find_match_index locs target with _ | k
      · have := (aux_eq_none_iff target locs 0 none (-1)).mp hidx
        have hle := this.2 c' hc' hm
        omega
      · rw [hidx] at h
        rcases aux_sound target locs 0 none (-1) k hidx with ⟨hb, -⟩ | ⟨d, x, hk, hget, -, -, -, -⟩
        · exact absurd hb (by simp)
        · have hkd : k = d := by omega
          subst hkd
          simp only [hget] at h
          exact absurd h (by simp)
    · intro h
      unfold find_match
      have : find_match_index locs target = none := by
        exact (aux_eq_none_iff target locs 0 none (-1)).mpr
          ⟨rfl, fun c hc hm => absurd hm (h c hc)⟩
      rw [this]

/-- Closed-form application of `find_match_correct` at a concrete input. -/
theorem find_match_correct_witness :
    (fl_ab ∈ [fl_a, fl_ab] ∧ matches_target fl_ab fl_abc ∧
      ∀ c' ∈ [fl_a, fl_ab], matches_target c' fl_abc →
        c'.segments.length ≤ fl_ab.segments.length) ∧
    (∀ c' ∈ [fl_abc], ¬ matches_target c' fl_a) :=
  ⟨find_match_correct.1 [fl_a, fl_ab] fl_abc fl_ab (by decide),
   (find_match_correct.2.1 [fl_abc] fl_a).mp (by decide)⟩

/-- C10: among equally long maximal qualifying prefixes, `find_match_index`
returns the first-registered candidate: every earlier qualifying
candidate is strictly shorter, so ties are broken by the lowest index.
The result is a pure function of the candidate list and the target. -/
theorem find_match_index_first_registered :
    ∀ (locs : List FileLocation) (target : FileLocation) (k : Nat),
      find_match_index locs target = some k →
      ∃ c, locs.get? k = some c ∧ matches_target c target ∧
        (∀ c' ∈ locs, matches_target c' target →
          c'.segments.length ≤ c.segments.length) ∧
        (∀ j c', j < k → locs.get? j = some c' → matches_target c' target →
          c'.segments.length < c.segments.length) := by
  intro locs target k h
  rcases aux_sound target locs 0 none (-1) k h with ⟨hb, -⟩ |
    ⟨d, c, hk, hget, hmx, -, hmax, hfirst⟩
  · exact absurd hb (by simp)
  · have hkd : k = d := by omega
    subst hkd
    exact ⟨c, hget, hmx, hmax, fun j c' hj hgj hmj => hfirst j c' hj hgj hmj⟩

/-- Closed-form application of `find_match_index_first_registered`: with
two equal candidates `/a`, the index returned is 0, the first one. -/
theorem find_match_index_first_registered_witness :
    ∃ c, [fl_a, fl_a].get? 0 = some c ∧ matches_target c fl_abc ∧
      (∀ c' ∈ [fl_a, fl_a], matches_target c' fl_abc →
        c'.segments.length ≤ c.segments.length) ∧
      (∀ j c', j < 0 → [fl_a, fl_a].get? j = some c' → matches_target c' fl_abc →
        c'.segments.length < c.segments.length) :=
  find_match_index_first_registered [fl_a, fl_a] fl_abc 0 (by decide)

end SimpleFileLocationMatcher

/-! ## Sqlite3Upserter (upserter/_Sqlite3Upserter.py)

The `files` table is modeled as a list of rows in insertion (rowid)
order; `file_id` is its UNIQUE identity key. The nondeterministic
call-time timestamp `now_iso()` is made an explicit argument. -/

/-- The `IndexedDocument` pydantic model (core/model/_IndexedDocument.py).
The unstructured `extra` payload is modeled by its `json.dumps`
serialization (a string), which is all the upserter persists of it. -/
structure IndexedDocument where
  file_id : Str
  file_uid : Option Str
  file_uri : Str
  file_size : Int
  file_hash_sha256 : Str
  file_extension : Str
  file_kind : Str
  title : Str
  importance : Int
  origin_uri : Option Str
  file_created_datetime : Str
  file_modified_datetime : Str
  index_created_datetime : Str
  index_updated_datetime : Str
  text : Option Str
  extra : Str
deriving DecidableEq, Repr

/-- The `FilesDbRecord` pydantic model (core/model/_FilesDbRecord.py),
1-to-1 aligned with the `UPSERT_SQL` parameters. -/
structure FilesDbRecord where
  file_id : Str
  file_uid : Option Str
  file_uri : Str
  file_size : Int
  file_hash_sha256 : Str
  file_extension : Str
  file_kind : Str
  importance : Int
  title : Str
  origin_uri : Option Str
  record_created_datetime : Str
  record_updated_datetime : Str
  file_created_datetime : Str
  file_modified_datetime : Str
  text : Option Str
  extra : Str
deriving DecidableEq, Repr

/-- `to_files_db_record`: project an `IndexedDocument` onto the
persistence model, stamping both record timestamps with the single
call-time `now_iso()` value (here the explicit `now_iso` argument). -/
def to_files_db_record (doc : IndexedDocument) (now_iso : Str) : FilesDbRecord :=
  { file_id := doc.file_id
    file_uid := doc.file_uid
    file_uri := doc.file_uri
    file_size := doc.file_size
    file_hash_sha256 := doc.file_hash_sha256
    file_extension := doc.file_extension
    file_kind := doc.file_kind
    importance := doc.importance
    title := doc.title
    origin_uri := doc.origin_uri
    record_created_datetime := now_iso
    record_updated_datetime := now_iso
    file_created_datetime := doc.file_created_datetime
    file_modified_datetime := doc.file_modified_datetime
    text := doc.text
    extra := doc.extra }

/-- Effect of executing `UPSERT_SQL` on the `files` table: INSERT the
row, or ON CONFLICT(file_id) update the conflicting row with every
`excluded` field except the insert-only `record_created_datetime`. -/
def upsertRecord (db : List FilesDbRecord) (r : FilesDbRecord) : List FilesDbRecord :=
  if ∃ old ∈ db, old.file_id = r.file_id then
    db.map (fun old =>
      if old.file_id = r.file_id then
        { r with record_created_datetime := old.record_created_datetime }
      else old)
  else db ++ [r]

/-- Observable state of a `Sqlite3Upserter`: the closed flag, the
`_in_transaction` flag, the committed content of the database file, and
the connection's working view (uncommitted writes included). -/
structure UpserterState where
  closed : Bool
  in_transaction : Bool
  committed : List FilesDbRecord
  working : List FilesDbRecord
deriving DecidableEq, Repr

/-- Errors surfaced by the upserter: the two `RuntimeError`s it raises
itself, and an arbitrary exception raised by a transaction body. -/
inductive UpserterError
  | closedError
  | nestedTransactionError
  | bodyException
deriving DecidableEq, Repr

/-- `Sqlite3Upserter.upsert`: reject when closed; execute `UPSERT_SQL`
on the connection, then commit unless inside a `transaction()` scope. -/
def upsert (s : UpserterState) (doc : IndexedDocument) (now_iso : Str) :
    Except UpserterError UpserterState :=
  if s.closed then .error .closedError
  else
    let w := upsertRecord s.working (to_files_db_record doc now_iso)
    if ¬ s.in_transaction then .ok { s with working := w, committed := w }
    else .ok { s with working := w }

/-- One step of a `transaction()` body: an `upsert` call (with its
call-time timestamp), an arbitrary exception raised by the body, or an
attempt to enter a nested `transaction()` on the same upserter (which
raises `RuntimeError` at entry, before touching the store). -/
inductive TxAction
  | upsertDoc (doc : IndexedDocument) (now_iso : Str)
  | raiseExc
  | enterNested
deriving Repr

/-- Run the statements of a `transaction()` body in order, stopping at
the first raised exception; an error carries the working state at the
moment of the raise. -/
def runTxBody (s : UpserterState) :
    List TxAction → Except (UpserterError × UpserterState) UpserterState
  | [] => .ok s
  | .upsertDoc d now :: rest =>
    match upsert s d now with
    | .ok s' => runTxBody s' rest
    | .error e => .error (e, s)
  | .raiseExc :: _ => .error (.bodyException, s)
  | .enterNested :: _ => .error (.nestedTransactionError, s)

/-- `Sqlite3Upserter.transaction`: reject when closed, reject nesting
fast, otherwise set `_in_transaction`, BEGIN, run the body, commit on
normal exit, roll back on any exception (and re-raise), clearing
`_in_transaction` in every case. The result pairs the raised error, if
any, with the final observable state. -/
def transaction (s : UpserterState) (body : List TxAction) :
    Option UpserterError × UpserterState :=
  if s.closed then (some .closedError, s)
  else if s.in_transaction then (some .nestedTransactionError, s)
  else
    match runTxBody { s with in_transaction := true } body with
    | .ok s2 => (none, { s2 with in_transaction := false, committed := s2.working })
    | .error (e, s2) => (some e, { s2 with in_transaction := false, working := s2.committed })

theorem upsert_eq (s : UpserterState) (d : IndexedDocument) (t : Str) :
    upsert s d t =
      if s.closed then .error .closedError
      else if s.in_transaction then
        .ok { s with working := upsertRecord s.working (to_files_db_record d t) }
      else
        .ok { s with
              working := upsertRecord s.working (to_files_db_record d t),
              committed := upsertRecord s.working (to_files_db_record d t) } := by
  unfold upsert
  by_cases hc : s.closed
  · simp [hc]
  · by_cases ht : s.in_transaction <;> simp [hc, ht]

theorem upsert_in_transaction (s : UpserterState) (d : IndexedDocument)
    (t : Str) (hc : s.closed = false) (ht : s.in_transaction = true) :
    upsert s d t = .ok { s with
      working := upsertRecord s.working (to_files_db_record d t) } := by
  rw [upsert_eq, if_neg (by simp [hc]), if_pos ht]

theorem upsert_ok_char (s : UpserterState) (d : IndexedDocument)
    (t : Str) (s' : UpserterState) (ht : s.in_transaction = true)
    (h : upsert s d t = .ok s') :
    s'.committed = s.committed ∧ s'.in_transaction = true ∧ s'.closed = s.closed := by
  rw [upsert_eq] at h
  by_cases hc : s.closed
  · rw [if_pos hc] at h; exact absurd h (by simp)
  · rw [if_neg hc, if_pos ht] at h
    obtain rfl := Except.ok.inj h
    exact ⟨rfl, ht, rfl⟩

/-- Inside a transaction the body never commits: `runTxBody` preserves
`committed`, `closed` and `in_transaction`, both on success and at the
moment of a raise. -/
theorem runTxBody_preserves (body : List TxAction) :
    ∀ (s : UpserterState), s.in_transaction = true →
      (∀ r, runTxBody s body = .ok r →
        r.committed = s.committed ∧ r.in_transaction = true ∧ r.closed = s.closed) ∧
      (∀ e s2, runTxBody s body = .error (e, s2) →
        s2.committed = s.committed ∧ s2.in_transaction = true ∧ s2.closed = s.closed) := by
  induction body with
  | nil =>
    intro s ht
    constructor
    · intro r h; obtain rfl := Except.ok.inj h; exact ⟨rfl, ht, rfl⟩
    · intro e s2 h; exact absurd h (by simp [runTxBody])
  | cons a rest ih =>
    intro s ht
    cases a with
    | upsertDoc d now =>
      constructor
      · intro r h
        simp only [runTxBody] at h
        cases hu : upsert s d now with
        | ok s' =>
          rw [hu] at h
          have hchar := upsert_ok_char s d now s' ht hu
          have := (ih s' hchar.2.1).1 r h
          exact ⟨this.1.trans hchar.1, this.2.1, this.2.2.trans hchar.2.2⟩
        | error e =>
          rw [hu] at h
          exact absurd h (by simp)
      · intro e s2 h
        simp only [runTxBody] at h
        cases hu : upsert s d now with
        | ok s' =>
          rw [hu] at h
          have hchar := upsert_ok_char s d now s' ht hu
          have := (ih s' hchar.2.1).2 e s2 h
          exact ⟨this.1.trans hchar.1, this.2.1, this.2.2.trans hchar.2.2⟩
        | error e' =>
          rw [hu] at h
          obtain ⟨rfl, rfl⟩ : e' = e ∧ s = s2 := by
            have := Except.error.inj h
            exact ⟨congrArg Prod.fst this, congrArg Prod.snd this⟩
          exact ⟨rfl, ht, rfl⟩
    | raiseExc =>
      constructor
      · intro r h; exact absurd h (by simp [runTxBody])
      · intro e s2 h
        simp only [runTxBody] at h
        obtain ⟨rfl, rfl⟩ : UpserterError.bodyException = e ∧ s = s2 := by
          have := Except.error.inj h
          exact ⟨congrArg Prod.fst this, congrArg Prod.snd this⟩
        exact ⟨rfl, ht, rfl⟩
    | enterNested =>
      constructor
      · intro r h; exact absurd h (by simp [runTxBody])
      · intro e s2 h
        simp only [runTxBody] at h
        obtain ⟨rfl, rfl⟩ : UpserterError.nestedTransactionError = e ∧ s = s2 := by
          have := Except.error.inj h
          exact ⟨congrArg Prod.fst this, congrArg Prod.snd this⟩
        exact ⟨rfl, ht, rfl⟩

theorem upsert_ok_flags (s : UpserterState) (d : IndexedDocument)
    (t : Str) (s' : UpserterState) (h : upsert s d t = .ok s') :
    s'.closed = s.closed ∧ s'.in_transaction = s.in_transaction := by
  rw [upsert_eq] at h
  by_cases hc : s.closed
  · rw [if_pos hc] at h; exact absurd h (by simp)
  · rw [if_neg hc] at h
    by_cases ht : s.in_transaction
    · rw [if_pos ht] at h; obtain rfl := Except.ok.inj h; exact ⟨rfl, rfl⟩
    · rw [if_neg ht] at h; obtain rfl := Except.ok.inj h; exact ⟨rfl, rfl⟩

/-- Result of a sequence of `UPSERT_SQL` executions on a table. -/
def applyUpserts (db : List FilesDbRecord)
    (docs : List (IndexedDocument × Str)) : List FilesDbRecord :=
  docs.foldl (fun db p => upsertRecord db (to_files_db_record p.1 p.2)) db

/-- A body consisting only of `upsert` calls runs to completion,
folding `UPSERT_SQL` over the working view and committing nothing. -/
theorem runTxBody_all_upserts (docs : List (IndexedDocument × Str)) :
    ∀ (s : UpserterState), s.closed = false → s.in_transaction = true →
      runTxBody s (docs.map (fun p => TxAction.upsertDoc p.1 p.2)) =
        .ok { s with working := applyUpserts s.working docs } := by
  induction docs with
  | nil => intro s _ _; simp [runTxBody, applyUpserts]
  | cons p rest ih =>
    intro s hc ht
    simp only [List.map_cons, runTxBody, applyUpserts, List.foldl_cons]
    rw [upsert_in_transaction s p.1 p.2 hc ht]
    exact ih _ hc ht

/-- A body containing a raise (exception or nested-transaction attempt)
always errors, provided the connection is open. -/
theorem runTxBody_raises (body : List TxAction) :
    ∀ (s : UpserterState), s.closed = false →
      (∃ a ∈ body, a = TxAction.raiseExc ∨ a = TxAction.enterNested) →
      ∃ e s2, runTxBody s body = .error (e, s2) := by
  induction body with
  | nil => intro s _ h; simp at h
  | cons a rest ih =>
    intro s hc h
    cases a with
    | upsertDoc d now =>
      have hrest : ∃ a ∈ rest, a = TxAction.raiseExc ∨ a = TxAction.enterNested := by
        rcases h with ⟨a, ha, hor⟩
        rcases List.mem_cons.mp ha with rfl | ha'
        · rcases hor with h' | h' <;> exact absurd h' (by simp)
        · exact ⟨a, ha', hor⟩
      simp only [runTxBody]
      cases hu : upsert s d now with
      | ok s' =>
        have hflags := upsert_ok_flags s d now s' hu
        exact ih s' (hflags.1.trans hc) hrest
      | error e => exact ⟨e, s, rfl⟩
    | raiseExc => exact ⟨.bodyException, s, rfl⟩
    | enterNested => exact ⟨.nestedTransactionError, s, rfl⟩

/-- C2: inside one `transaction()` scope, (1) a body of upserts that
exits normally is committed in full; (2) a body that raises anywhere
(an exception, or an attempt to nest `transaction()`) leaves the store
rolled back to its pre-transaction content, with none of the scope's
upserts visible; (3) entering `transaction()` while a scope is already
open errors immediately without altering the store. -/
theorem transaction_correct :
    (∀ (s : UpserterState) (docs : List (IndexedDocument × Str)),
      s.closed = false → s.in_transaction = false →
      transaction s (docs.map (fun p => TxAction.upsertDoc p.1 p.2)) =
        (none, { s with
                 committed := applyUpserts s.working docs,
                 working := applyUpserts s.working docs })) ∧
    (∀ (s : UpserterState) (body : List TxAction),
      s.closed = false → s.in_transaction = false →
      (∃ a ∈ body, a = TxAction.raiseExc ∨ a = TxAction.enterNested) →
      ∃ e, (transaction s body).1 = some e ∧
        (transaction s body).2.committed = s.committed ∧
        (transaction s body).2.working = s.committed ∧
        (transaction s body).2.in_transaction = false) ∧
    (∀ (s : UpserterState) (body : List TxAction),
      s.closed = false → s.in_transaction = true →
      transaction s body = (some .nestedTransactionError, s)) := by
  refine ⟨?_, ?_, ?_⟩
  · intro s docs hc ht
    unfold transaction
    rw [if_neg (by simp [hc]), if_neg (by simp [ht])]
    rw [runTxBody_all_upserts docs { s with in_transaction := true } hc rfl]
    simp [ht]
  · intro s body hc ht hraise
    unfold transaction
    rw [if_neg (by simp [hc]), if_neg (by simp [ht])]
    obtain ⟨e, s2, herr⟩ :=
      runTxBody_raises body { s with in_transaction := true } hc hraise
    have hpres := ((runTxBody_preserves body { s with in_transaction := true }
      rfl).2 e s2 herr).1
    rw [herr]
    exact ⟨e, rfl, by simpa using hpres, by simpa using hpres, rfl⟩
  · intro s body hc ht
    unfold transaction
    rw [if_neg (by simp [hc]), if_pos (by simp [ht])]

/-- A sample document used to instantiate the upserter theorems. -/
def sampleDoc : IndexedDocument :=
  { file_id := ['x'], file_uid := none, file_uri := [], file_size := 0,
    file_hash_sha256 := [], file_extension := [], file_kind := [],
    title := ['t'], importance := 0, origin_uri := none,
    file_created_datetime := [], file_modified_datetime := [],
    index_created_datetime := [], index_updated_datetime := [],
    text := none, extra := [] }

/-- A second sample document with the same `file_id` but another title. -/
def sampleDoc2 : IndexedDocument := { sampleDoc with title := ['u'] }

/-- A fresh open upserter over an empty database. -/
def upserterS0 : UpserterState :=
  { closed := false, in_transaction := false, committed := [], working := [] }

/-- An upserter that already has a `transaction()` scope open. -/
def upserterSTx : UpserterState :=
  { closed := false, in_transaction := true, committed := [], working := [] }

/-- Closed-form application of `transaction_correct` at concrete inputs:
a one-upsert body commits, a raising body rolls back, and a nested entry
fails fast leaving the state untouched. -/
theorem transaction_correct_witness :
    (transaction upserterS0
        ([(sampleDoc, ['n'])].map (fun p => TxAction.upsertDoc p.1 p.2)) =
      (none, { upserterS0 with
               committed := applyUpserts upserterS0.working [(sampleDoc, ['n'])],
               working := applyUpserts upserterS0.working [(sampleDoc, ['n'])] })) ∧
    (∃ e, (transaction upserterS0 [TxAction.upsertDoc sampleDoc ['n'], TxAction.raiseExc]).1 = some e ∧
      (transaction upserterS0 [TxAction.upsertDoc sampleDoc ['n'], TxAction.raiseExc]).2.committed = upserterS0.committed ∧
      (transaction upserterS0 [TxAction.upsertDoc sampleDoc ['n'], TxAction.raiseExc]).2.working = upserterS0.committed ∧
      (transaction upserterS0 [TxAction.upsertDoc sampleDoc ['n'], TxAction.raiseExc]).2.in_transaction = false) ∧
    transaction upserterSTx [] = (some .nestedTransactionError, upserterSTx) :=
  ⟨transaction_correct.1 upserterS0 [(sampleDoc, ['n'])] rfl rfl,
   transaction_correct.2.1 upserterS0
     [TxAction.upsertDoc sampleDoc ['n'], TxAction.raiseExc] rfl rfl
     ⟨TxAction.raiseExc, by simp, Or.inl rfl⟩,
   transaction_correct.2.2 upserterSTx [] rfl rfl⟩

/-- C3: two auto-committing upserts of documents sharing one `file_id`
over a table with no row for that id leave exactly one row keyed by it;
that row's non-timestamp fields are the second document's, its
`record_created_datetime` is the first upsert's timestamp, and its
`record_updated_datetime` is the second upsert's timestamp. -/
theorem upsert_twice_same_id (db : List FilesDbRecord)
    (d1 d2 : IndexedDocument) (t1 t2 : Str)
    (hid : d1.file_id = d2.file_id)
    (hfresh : ∀ r ∈ db, r.file_id ≠ d1.file_id)
    (s1 s2 : UpserterState)
    (h1 : upsert { closed := false, in_transaction := false,
                   committed := db, working := db } d1 t1 = .ok s1)
    (h2 : upsert s1 d2 t2 = .ok s2) :
    s2.committed =
      db ++ [{ to_files_db_record d2 t2 with record_created_datetime := t1 }] ∧
    s2.committed.filter (fun r => decide (r.file_id = d2.file_id)) =
      [{ to_files_db_record d2 t2 with record_created_datetime := t1 }] := by
  have hne1 : ¬ ∃ old ∈ db, old.file_id = (to_files_db_record d1 t1).file_id := by
    rintro ⟨old, hold, heq⟩
    exact hfresh old hold heq
  rw [upsert_eq] at h1
  rw [if_neg (by simp), if_neg (by simp)] at h1
  obtain rfl := Except.ok.inj h1.symm
  have hw1 : upsertRecord db (to_files_db_record d1 t1) =
      db ++ [to_files_db_record d1 t1] := by
    unfold upsertRecord
    rw [if_neg hne1]
  rw [upsert_eq] at h2
  rw [if_neg (by simp), if_neg (by simp)] at h2
  obtain rfl := Except.ok.inj h2.symm
  simp only [hw1]
  have hconf : ∃ old ∈ db ++ [to_files_db_record d1 t1],
      old.file_id = (to_files_db_record d2 t2).file_id := by
    refine ⟨to_files_db_record d1 t1, by simp, ?_⟩
    simpa [to_files_db_record] using hid
  have hmap : upsertRecord (db ++ [to_files_db_record d1 t1])
      (to_files_db_record d2 t2) =
      db ++ [{ to_files_db_record d2 t2 with record_created_datetime := t1 }] := by
    unfold upsertRecord
    rw [if_pos hconf, List.map_append]
    congr 1
    · conv_rhs => rw [show db = db.map id from (List.map_id db).symm]
      apply List.map_congr_left
      intro old hold
      rw [if_neg]
      · rfl
      · simpa [to_files_db_record, ← hid] using hfresh old hold
    · simp only [List.map_cons, List.map_nil]
      rw [if_pos (by simpa [to_files_db_record] using hid)]
      rfl
  refine ⟨by simpa using hmap, ?_⟩
  rw [hmap, List.filter_append]
  have hdbnil : db.filter (fun r => decide (r.file_id = d2.file_id)) = [] := by
    rw [List.filter_eq_nil_iff]
    intro r hr
    simpa using (hid ▸ hfresh r hr)
  rw [hdbnil]
  simp [to_files_db_record]

/-- Closed-form application of `upsert_twice_same_id` at concrete inputs. -/
theorem upsert_twice_same_id_witness :
    (UpserterState.committed
      { closed := false, in_transaction := false,
        committed := [{ to_files_db_record sampleDoc2 ['2'] with
                        record_created_datetime := ['1'] }],
        working := [{ to_files_db_record sampleDoc2 ['2'] with
                      record_created_datetime := ['1'] }] }) =
      [] ++ [{ to_files_db_record sampleDoc2 ['2'] with
               record_created_datetime := ['1'] }] ∧
    (List.filter (fun r => decide (r.file_id = sampleDoc2.file_id))
      (UpserterState.committed
        { closed := false, in_transaction := false,
          committed := [{ to_files_db_record sampleDoc2 ['2'] with
                          record_created_datetime := ['1'] }],
          working := [{ to_files_db_record sampleDoc2 ['2'] with
                        record_created_datetime := ['1'] }] })) =
      [{ to_files_db_record sampleDoc2 ['2'] with
         record_created_datetime := ['1'] }] :=
  upsert_twice_same_id [] sampleDoc sampleDoc2 ['1'] ['2'] rfl (by simp)
    { closed := false, in_transaction := false,
      committed := [to_files_db_record sampleDoc ['1']],
      working := [to_files_db_record sampleDoc ['1']] }
    { closed := false, in_transaction := false,
      committed := [{ to_files_db_record sampleDoc2 ['2'] with
                      record_created_datetime := ['1'] }],
      working := [{ to_files_db_record sampleDoc2 ['2'] with
                    record_created_datetime := ['1'] }] }
    rfl rfl

/-! ## wrap_text_search_query (component/searcher/_Sqlite3Searcher.py)

The tokenizer regex `-"([^"]+)"|"([^"]+)"|(-?\S+)` is translated into a
left-to-right scanner: at each position the three alternatives are tried
in order ( a negated quoted phrase, a quoted phrase, a maximal run of
non-whitespace characters, the optional leading `-` being absorbed into
that run), and a position matching none of them — a whitespace
character — is skipped, exactly as `re.findall` advances. -/

/-- ASCII whitespace, the characters matched by the regex class `\s`. -/
def isSpaceChar (c : Char) : Bool :=
  c == ' ' || c == '\t' || c == '\n' || c == '\x0d' || c == '\x0b' || c == '\x0c'

/-- The `Token` dataclass: one logical search term. -/
structure Token where
  text : Str
  negate : Bool
deriving DecidableEq, Repr

/-- Match the regex fragment `"([^"]+)"` at the head of the input:
a quote, one or more non-quote characters, a closing quote. Returns the
captured group and the rest of the input. -/
def matchQuoted : Str → Option (Str × Str)
  | [] => none
  | c :: rest =>
    if c = '"' then
      let inner := rest.takeWhile (fun ch => ! (ch == '"'))
      if inner = [] then none
      else
        match rest.drop inner.length with
        | c2 :: after => if c2 = '"' then some (inner, after) else none
        | [] => none
    else none

theorem matchQuoted_length (cs inner after : Str)
    (h : matchQuoted cs = some (inner, after)) : after.length < cs.length := by
  match cs with
  | [] => exact absurd h (by simp [matchQuoted])
  | c :: rest =>
    simp only [matchQuoted] at h
    by_cases hc : c = '"'
    case neg => rw [if_neg hc] at h; exact absurd h (by simp)
    rw [if_pos hc] at h
    by_cases hinner : rest.takeWhile (fun ch => ! (ch == '"')) = []
    case pos => rw [if_pos hinner] at h; exact absurd h (by simp)
    rw [if_neg hinner] at h
    split at h
    · rename_i c2 after' heq
      split at h
      · have hafter : after' = after := congrArg Prod.snd (Option.some.inj h)
        subst hafter
        have hlen := congrArg List.length heq
        simp only [List.length_drop, List.length_cons] at hlen
        simp only [List.length_cons]
        omega
      · exact absurd h (by simp)
    · exact absurd h (by simp)

/-- Build the token for a bare (unquoted) match: a leading `-` on a run
of length at least 2 marks negation and is stripped from the text. -/
def bareToken (bare : Str) : Token :=
  match bare with
  | '-' :: c2 :: rest2 => { text := c2 :: rest2, negate := true }
  | _ => { text := bare, negate := false }

/-- Fuel-indexed scanner for the token regex; the fuel (at least the
input length, each step consumes at least one character) only makes the
recursion structural. -/
def scanTokensFuel : Nat → Str → List Token
  | _, [] => []
  | 0, _ :: _ => []
  | fuel+1, c :: rest =>
    if c = '-' then
      match matchQuoted rest with
      | some (inner, after) =>
        { text := inner, negate := true } :: scanTokensFuel fuel after
      | none =>
        let run := rest.takeWhile (fun ch => ! isSpaceChar ch)
        bareToken (c :: run) :: scanTokensFuel fuel (rest.drop run.length)
    else if c = '"' then
      match matchQuoted (c :: rest) with
      | some (inner, after) =>
        { text := inner, negate := false } :: scanTokensFuel fuel after
      | none =>
        let run := rest.takeWhile (fun ch => ! isSpaceChar ch)
        bareToken (c :: run) :: scanTokensFuel fuel (rest.drop run.length)
    else if isSpaceChar c then
      scanTokensFuel fuel rest
    else
      let run := rest.takeWhile (fun ch => ! isSpaceChar ch)
      bareToken (c :: run) :: scanTokensFuel fuel (rest.drop run.length)

/-- `re.findall(_TOKEN_PATTERN, query)` turned into the token list of
`wrap_text_search_query`. -/
def scanTokens (query : Str) : List Token :=
  scanTokensFuel query.length query

/-- Python `str.replace` of `"` by `""`, the FTS phrase escape. -/
def escapeQuotes : Str → Str
  | [] => []
  | c :: cs => if c = '"' then '"' :: '"' :: escapeQuotes cs else c :: escapeQuotes cs

/-- Render one token: an explicitly quoted phrase, `NOT`-prefixed when
negated. -/
def renderToken (t : Token) : Str :=
  let phrase := '"' :: (escapeQuotes t.text ++ ['"'])
  if t.negate then "NOT ".data ++ phrase else phrase

/-- Python `" AND ".join(parts)`. -/
def joinAnd : List Str → Str
  | [] => []
  | [p] => p
  | p :: q :: ps => p ++ " AND ".data ++ joinAnd (q :: ps)

/-- `wrap_text_search_query`: tokenize, fall back to the single empty
quoted phrase on an empty token list, else emit every term quoted and
join with explicit AND. -/
def wrap_text_search_query (query : Str) : Str :=
  let tokens := scanTokens query
  if tokens = [] then "\"\"".data
  else joinAnd (tokens.map renderToken)

theorem scanTokensFuel_all_space (fuel : Nat) :
    ∀ (q : Str), (∀ ch ∈ q, isSpaceChar ch) → scanTokensFuel fuel q = [] := by
  induction fuel with
  | zero => intro q _; cases q <;> rfl
  | succ fuel ih =>
    intro q hq
    cases q with
    | nil => rfl
    | cons c rest =>
      have hc : isSpaceChar c := hq c (List.mem_cons_self _ _)
      have hcdash : ¬ c = '-' := by rintro rfl; simp [isSpaceChar] at hc
      have hcquote : ¬ c = '"' := by rintro rfl; simp [isSpaceChar] at hc
      simp only [scanTokensFuel, if_neg hcdash, if_neg hcquote, if_pos hc]
      exact ih rest (fun ch hch => hq ch (List.mem_cons_of_mem c hch))

theorem takeWhile_append_stop (p : Char → Bool) (xs : Str) (y : Char) (rest : Str)
    (hxs : ∀ x ∈ xs, p x) (hy : ¬ p y) :
    (xs ++ y :: rest).takeWhile p = xs := by
  induction xs with
  | nil => simp [List.takeWhile_cons, hy]
  | cons x xs ih =>
    have hx := hxs x (List.mem_cons_self _ _)
    have ih' := ih (fun z hz => hxs z (List.mem_cons_of_mem _ hz))
    simp [List.takeWhile_cons, hx, ih']

theorem scanTokensFuel_succ_quote (fuel : Nat) (rest inner after : Str)
    (hmq : matchQuoted ('"' :: rest) = some (inner, after)) :
    scanTokensFuel (fuel+1) ('"' :: rest) =
      { text := inner, negate := false } :: scanTokensFuel fuel after := by
  simp [scanTokensFuel, hmq]

/-- A standalone double-quoted run is scanned as exactly one
non-negated token whose text is the quoted content verbatim. -/
theorem scanTokens_quoted (inner : Str) (hne : inner ≠ [])
    (hq : ∀ ch ∈ inner, ¬ ch = '"') :
    scanTokens ('"' :: (inner ++ ['"'])) = [{ text := inner, negate := false }] := by
  have htake : (inner ++ '"' :: []).takeWhile (fun ch => ! (ch == '"')) = inner :=
    takeWhile_append_stop _ inner '"' []
      (fun x hx => by simpa using hq x hx) (by simp)
  have hmq : matchQuoted ('"' :: (inner ++ ['"'])) = some (inner, []) := by
    simp [matchQuoted, htake, hne, List.drop_left]
  unfold scanTokens
  have hlen : ('"' :: (inner ++ ['"'])).length = inner.length + 1 + 1 := by simp
  rw [hlen, scanTokensFuel_succ_quote (inner.length + 1) (inner ++ ['"']) inner [] hmq]
  simp [scanTokensFuel]

/-- C5: the free-text query compiler maps `hello world` to
`"hello" AND "world"`, `-world` to `NOT "world"`, keeps a double-quoted
run as one term preserving internal whitespace verbatim, compiles empty
or all-whitespace input to the single empty quoted phrase without
failing, and always emits a nonempty AND-join of quoted phrases (plain
or NOT-prefixed), never a raw input token. -/
theorem wrap_text_search_query_correct :
    wrap_text_search_query "hello world".data = "\"hello\" AND \"world\"".data ∧
    wrap_text_search_query "-world".data = "NOT \"world\"".data ∧
    wrap_text_search_query "\"hello   world\"".data = "\"hello   world\"".data ∧
    (∀ inner : Str, inner ≠ [] → (∀ ch ∈ inner, ¬ ch = '"') →
      scanTokens ('"' :: (inner ++ ['"'])) = [{ text := inner, negate := false }]) ∧
    (∀ q : Str, (∀ ch ∈ q, isSpaceChar ch) →
      wrap_text_search_query q = "\"\"".data) ∧
    (∀ q : Str, ∃ parts : List Str, parts ≠ [] ∧
      wrap_text_search_query q = joinAnd parts ∧
      ∀ p ∈ parts, ∃ t : Token, p = renderToken t) := by
  refine ⟨by decide, by decide, by decide, scanTokens_quoted, ?_, ?_⟩
  · intro q hq
    simp only [wrap_text_search_query]
    rw [if_pos (show scanTokens q = [] from scanTokensFuel_all_space q.length q hq)]
  · intro q
    simp only [wrap_text_search_query]
    by_cases h : scanTokens q = []
    · refine ⟨[renderToken { text := [], negate := false }], by simp, ?_, ?_⟩
      · rw [if_pos h]; rfl
      · intro p hp
        rw [List.mem_singleton] at hp
        exact ⟨_, hp⟩
    · refine ⟨(scanTokens q).map renderToken, by simpa using h, by rw [if_neg h], ?_⟩
      intro p hp
      obtain ⟨t, -, rfl⟩ := List.mem_map.mp hp
      exact ⟨t, rfl⟩

/-- Closed-form application of `wrap_text_search_query_correct` at
concrete inputs: the quoted-run clause at `"a b"`, the whitespace clause
at a two-space input, and the shape clause at `hello`. -/
theorem wrap_text_search_query_correct_witness :
    scanTokens ('"' :: (['a', ' ', 'b'] ++ ['"'])) =
      [{ text := ['a', ' ', 'b'], negate := false }] ∧
    wrap_text_search_query "  ".data = "\"\"".data ∧
    ∃ parts : List Str, parts ≠ [] ∧
      wrap_text_search_query "hello".data = joinAnd parts ∧
      ∀ p ∈ parts, ∃ t : Token, p = renderToken t :=
  ⟨wrap_text_search_query_correct.2.2.2.1 ['a', ' ', 'b'] (by decide) (by decide),
   wrap_text_search_query_correct.2.2.2.2.1 "  ".data (by decide),
   wrap_text_search_query_correct.2.2.2.2.2 "hello".data⟩

/-! ## Sqlite3Searcher.search (component/searcher/_Sqlite3Searcher.py)

`SEARCH_SQL` delegates matching and ranking to the sqlite FTS5 engine;
the row set it returns (columns file_id, file_extension, title,
file_uri, origin_uri, score, snippet) is therefore an oracle input
here, and what is modeled is the projection of those rows into
`SearchHit`s and the limit handling around it. -/

/-- One row fetched by `SEARCH_SQL`. The bm25 score is kept opaque. -/
structure SearchRow where
  file_id : Str
  file_extension : Str
  title : Str
  file_uri : Str
  origin_uri : Option Str
  score : Int
  snippet : Str
deriving DecidableEq, Repr

/-- The `SearchHit` pydantic model (core/model/_SearchHit.py). -/
structure SearchHit where
  file_id : Str
  title : Str
  file_uri : Option Str
  origin_uri : Option Str
  snippet : Option Str
  score : Option Int
deriving DecidableEq, Repr

/-- The `SearchArguments` pydantic model. -/
structure SearchArguments where
  query : Str
  limit : Int
  offset : Int
deriving DecidableEq, Repr

/-- The `SearchResult` pydantic model. -/
structure SearchResult where
  query : Str
  limit : Int
  offset : Int
  hits : List SearchHit
deriving DecidableEq, Repr

/-- The row loop of `Sqlite3Searcher.search`: each fetched row becomes a
`SearchHit` whose `file_id` field is built as
`row["file_id"]+row["file_extension"]`. -/
def rowsToHits (rows : List SearchRow) : List SearchHit :=
  rows.map (fun row =>
    { file_id := row.file_id ++ row.file_extension
      title := row.title
      file_uri := some row.file_uri
      origin_uri := row.origin_uri
      snippet := some row.snippet
      score := some row.score })

/-- `Sqlite3Searcher.search`: cap the limit at the configured maximum,
run `SEARCH_SQL` (its row set is the `rows` oracle), and project the
rows into hits. -/
def search (rows : List SearchRow) (args : SearchArguments)
    (max_limit : Int) : SearchResult :=
  { query := args.query
    limit := min args.limit max_limit
    offset := args.offset
    hits := rowsToHits rows }

/-- A sample matched row whose stored identity key is `abc` and whose
extension is `.html`. -/
def sampleRow : SearchRow :=
  { file_id := "abc".data, file_extension := ".html".data,
    title := ['t'], file_uri := ['u'], origin_uri := none,
    score := 0, snippet := ['s'] }

/-- Arguments used to instantiate the search theorems. -/
def sampleArgs : SearchArguments := { query := ['q'], limit := 20, offset := 0 }

/-- C8 as stated is false: the hit built from the row with stored
`file_id = "abc"` and `file_extension = ".html"` carries
`file_id = "abc.html"`, which differs from the stored identity key of
every row in the result set. -/
theorem searchHit_file_id_not_stored :
    ((search [sampleRow] sampleArgs 50).hits.map SearchHit.file_id =
      ["abc.html".data]) ∧
    ¬ ∃ row ∈ [sampleRow], row.file_id = "abc.html".data := by
  constructor
  · decide
  · decide

/-- C8 amended: every hit's `file_id` is the matched row's stored
`file_id` concatenated with its stored `file_extension` (the other hit
fields are the row's values unmodified), hit `i` coming from row `i`. -/
theorem searchHit_file_id_concat (rows : List SearchRow)
    (args : SearchArguments) (max_limit : Int) (i : Nat)
    (hi : i < rows.length) :
    (search rows args max_limit).hits.get? i =
      some { file_id := (rows.get ⟨i, hi⟩).file_id ++ (rows.get ⟨i, hi⟩).file_extension
             title := (rows.get ⟨i, hi⟩).title
             file_uri := some (rows.get ⟨i, hi⟩).file_uri
             origin_uri := (rows.get ⟨i, hi⟩).origin_uri
             snippet := some (rows.get ⟨i, hi⟩).snippet
             score := some (rows.get ⟨i, hi⟩).score } := by
  show (rowsToHits rows).get? i = _
  unfold rowsToHits
  rw [List.get?_map, List.get?_eq_get hi]
  rfl

/-- Closed-form application of `searchHit_file_id_concat` at index 0 of
a one-row result. -/
theorem searchHit_file_id_concat_witness :
    (search [sampleRow] sampleArgs 50).hits.get? 0 =
      some { file_id := ([sampleRow].get ⟨0, by decide⟩).file_id ++
                        ([sampleRow].get ⟨0, by decide⟩).file_extension
             title := ([sampleRow].get ⟨0, by decide⟩).title
             file_uri := some (([sampleRow].get ⟨0, by decide⟩).file_uri)
             origin_uri := ([sampleRow].get ⟨0, by decide⟩).origin_uri
             snippet := some (([sampleRow].get ⟨0, by decide⟩).snippet)
             score := some (([sampleRow].get ⟨0, by decide⟩).score) } :=
  searchHit_file_id_concat [sampleRow] sampleArgs 50 0 (by decide)

/-! ## URI parsing model

`urllib.parse.urlparse` as used by `FileLocation.from_uri` and
`UriResolver.resolve`, modeled for ASCII input: tab/CR/LF removal, the
scheme split (lower-cased, validated character set), the `//`-prefixed
netloc, the fragment and query splits, and urlparse's params split on
the last path segment. -/

/-- Characters legal in a URL scheme (letters, digits, `+`, `-`, `.`). -/
def isSchemeChar (c : Char) : Bool :=
  c.isAlpha || c.isDigit || c == '+' || c == '-' || c == '.'

/-- Python `str.lower()` (ASCII). -/
def toLowerStr (s : Str) : Str := s.map Char.toLower

/-- `urllib.parse` removes tab, CR and LF anywhere in the URL. -/
def removeUnsafeUrlChars (url : Str) : Str :=
  url.filter (fun c => ! (c == '\t' || c == '\x0d' || c == '\n'))

/-- Components produced by `urllib.parse.urlparse`. -/
structure UrlParts where
  scheme : Str
  netloc : Str
  path : Str
  params : Str
  query : Str
  fragment : Str
deriving DecidableEq, Repr

/-- Python `str.split(sep, 1)` for a one-character separator, `none`
when the separator does not occur. -/
def splitOnceChar (sep : Char) (s : Str) : Option (Str × Str) :=
  match s.findIdx? (fun ch => ch == sep) with
  | some i => some (s.take i, s.drop (i+1))
  | none => none

/-- Head character is an ASCII letter (`url[0].isascii() and
url[0].isalpha()`). -/
def headIsAlpha : Str → Bool
  | c0 :: _ => c0.isAlpha
  | [] => false

/-- The scheme split of `urlsplit`: a `:` at a positive index, a leading
ASCII letter and only scheme characters before it give a lower-cased
scheme; otherwise the URL is all path. -/
def splitScheme (url : Str) : Str × Str :=
  match url.findIdx? (fun ch => ch == ':') with
  | some i =>
    if 0 < i ∧ (url.take i).all isSchemeChar ∧ headIsAlpha url then
      (toLowerStr (url.take i), url.drop (i+1))
    else ([], url)
  | none => ([], url)

/-- `_splitnetloc`: after a leading `//`, the netloc runs to the first
`/`, `?` or `#`. -/
def splitNetloc (url : Str) : Str × Str :=
  let rest := url.drop 2
  let netloc := rest.takeWhile (fun c => ! (c == '/' || c == '?' || c == '#'))
  (netloc, rest.drop netloc.length)

/-- `_splitparams`: split `;params` off the last path segment. -/
def splitParams (url : Str) : Str × Str :=
  let start :=
    match (url.reverse.findIdx? (fun ch => ch == '/')) with
    | some revIdx => url.length - 1 - revIdx
    | none => 0
  match (url.drop start).findIdx? (fun ch => ch == ';') with
  | some j => (url.take (start + j), url.drop (start + j + 1))
  | none => (url, [])

/-- `urllib.parse.urlparse` (ASCII model): unsafe-character removal,
scheme, netloc, fragment, query, params. -/
def urlparseModel (url : Str) : UrlParts :=
  let url := removeUnsafeUrlChars url
  let (scheme, rest1) := splitScheme url
  let (netloc, rest2) :=
    if rest1.take 2 = ['/', '/'] then splitNetloc rest1 else ([], rest1)
  let (rest3, fragment) :=
    match splitOnceChar '#' rest2 with
    | some (a, b) => (a, b)
    | none => (rest2, [])
  let (rest4, query) :=
    match splitOnceChar '?' rest3 with
    | some (a, b) => (a, b)
    | none => (rest3, [])
  let (path, params) :=
    if rest4.contains ';' then splitParams rest4 else (rest4, [])
  { scheme := scheme, netloc := netloc, path := path,
    params := params, query := query, fragment := fragment }

/-! ## Percent coding (urllib.parse.unquote / quote) -/

/-- Value of a hexadecimal digit. -/
def hexVal (c : Char) : Option Nat :=
  if '0' ≤ c ∧ c ≤ '9' then some (c.toNat - '0'.toNat)
  else if 'a' ≤ c ∧ c ≤ 'f' then some (c.toNat - 'a'.toNat + 10)
  else if 'A' ≤ c ∧ c ≤ 'F' then some (c.toNat - 'A'.toNat + 10)
  else none

/-- Python `urllib.parse.unquote`, restricted to single-byte escapes:
`%XX` with two hex digits becomes the character with code XX, an
invalid escape stays verbatim. Multi-byte UTF-8 escape sequences are
outside the modeled (ASCII) fragment. -/
def unquote : Str → Str
  | [] => []
  | '%' :: a :: b :: rest =>
    (match hexVal a, hexVal b with
     | some ha, some hb => Char.ofNat (ha * 16 + hb) :: unquote rest
     | _, _ => '%' :: unquote (a :: b :: rest))
  | c :: rest => c :: unquote rest

/-- Characters `urllib.parse.quote` never encodes. -/
def isUnreservedChar (c : Char) : Bool :=
  c.isAlpha || c.isDigit || c == '_' || c == '.' || c == '-' || c == '~'

/-- Upper-case hexadecimal digit of a value below 16. -/
def hexDigit (n : Nat) : Char :=
  if n < 10 then Char.ofNat ('0'.toNat + n) else Char.ofNat ('A'.toNat + n - 10)

/-- Python `urllib.parse.quote(s, safe='')` on ASCII input: every
character outside the always-safe set becomes `%XX`. -/
def quoteChar (c : Char) : Str :=
  if isUnreservedChar c then [c]
  else ['%', hexDigit (c.toNat / 16 % 16), hexDigit (c.toNat % 16)]

/-- `quote` over a segment. -/
def quote (s : Str) : Str := (s.map quoteChar).join

namespace FileLocation

/-- `FileLocation.uri_path_to_segments`: `None` marker for an absolute
URI path, then percent-decoded segments split on `/`. -/
def uri_path_to_segments (path : Option Str) : List Seg :=
  match path with
  | none => []
  | some [] => []
  | some (c :: rest) =>
    let is_absolute := c = '/'
    let relative_path := if is_absolute then rest else c :: rest
    let front : List Seg := if is_absolute then [none] else []
    front ++ (splitOnChar '/' relative_path).map (fun part => some (unquote part))

/-- `FileLocation.segments_try_relative_to`: strip `base` when it is a
prefix of `full`, else return `full` unchanged. -/
def segments_try_relative_to (full base : List Seg) : List Seg :=
  if full.take base.length = base then full.drop base.length else full

/-- `FileLocation.from_uri`: lstrip (CVE-2023-24329), parse, derive
base/sub segments, and distinguish the null authority from the empty
one by checking for a literal `://` (or leading `//`) in the input. -/
def from_uri (uri : Str) (base_uri_path : Option Str) : FileLocation :=
  let uri := uri.dropWhile (fun c => isSpaceChar c)
  let parsed := urlparseModel uri
  let path_segments := uri_path_to_segments (some parsed.path)
  let base_segments := uri_path_to_segments base_uri_path
  let sub_segments := segments_try_relative_to path_segments base_segments
  let authority : Option Str :=
    if parsed.netloc = [] then
      let is_empty_authority :=
        if parsed.scheme ≠ [] then
          (uri.drop parsed.scheme.length).take 3 = [':', '/', '/']
        else uri.take 2 = ['/', '/']
      if is_empty_authority then some [] else none
    else some parsed.netloc
  { scheme := parsed.scheme, authority := authority,
    base_segments := base_segments, sub_segments := sub_segments }

/-- `FileLocation._segments_to_uri_path`: `/` for the bare absolute
marker, else percent-encoded segments joined with `/` (the `None`
marker contributing an empty piece). -/
def _segments_to_uri_path (segments : List Seg) : Str :=
  if segments = [none] then ['/']
  else joinWith '/' (segments.map (fun seg =>
    match seg with
    | some s => quote s
    | none => []))

/-- The `uri_path` property. -/
def uri_path (fl : FileLocation) : Str := _segments_to_uri_path fl.segments

/-- The `uri` property as written in the source: the conditional reads
`'//' + self.authority if self is not None else ''`, and `self is not
None` is always true for a property access, so the else-branch is dead
and a `None` authority reaches the string concatenation `'//' + None`,
which raises `TypeError`. -/
def uriProperty (fl : FileLocation) : Except Str Str :=
  if (true : Bool) then
    match fl.authority with
    | none => Except.error "TypeError: can only concatenate str to str".data
    | some a => Except.ok (fl.scheme ++ [':'] ++ ('/' :: '/' :: a) ++ fl.uri_path)
  else Except.ok (fl.scheme ++ [':'] ++ fl.uri_path)

end FileLocation

/-- C9 fails on the code: `from_uri` on a URI written without an
authority component yields `authority = None` (null, not empty), and
projecting that location back to a URI string raises `TypeError`
instead of returning a string — the guard tests `self is not None`
where `self.authority is not None` was meant. -/
theorem uri_property_raises_on_null_authority :
    (FileLocation.from_uri "file:/a/b".data none).authority = none ∧
    FileLocation.uriProperty (FileLocation.from_uri "file:/a/b".data none) =
      Except.error "TypeError: can only concatenate str to str".data := by
  constructor
  · decide
  · decide

/-! ## UriResolver (component/resolver/_UriResolver.py) -/

/-- The `ResolutionStatus` enum. -/
inductive ResolutionStatus
  | OK
  | TRASHED
  | DELETED
  | ABSENT
deriving DecidableEq, Repr

/-- The `FileType` enum. -/
inductive FileType
  | REGULAR
  | DIRECTORY
deriving DecidableEq, Repr

/-- The `ResolvedTarget` pydantic model. -/
structure ResolvedTarget where
  status : ResolutionStatus
  file_id : Str
  file_extension : Str
  file_kind : Option Str
  title : Option Str
  file_location : Option FileLocation
  file_type : Option FileType
deriving DecidableEq, Repr

/-- The two failure kinds of `UriResolver.resolve`: Python `ValueError`
(malformed URI) and `LookupError` (well-formed but not found). -/
inductive ResolveError
  | valueError (msg : Str)
  | lookupError (msg : Str)
deriving DecidableEq, Repr

/-- Python `str.strip("/")`. -/
def stripSlashes (s : Str) : Str :=
  ((s.dropWhile (fun c => c == '/')).reverse.dropWhile (fun c => c == '/')).reverse

/-- `parsed.path.strip("/").split("/")` of `resolve`. -/
def pathParts (path : Str) : List Str := splitOnChar '/' (stripSlashes path)

/-- Row lookup of `_resolve_by_selector`: the selector chooses the
column, an unknown selector is a `ValueError`; `fetchone` is the first
matching row. -/
def selectorLookup (db : List FilesDbRecord) (selector value ext : Str) :
    Except ResolveError (Option FilesDbRecord) :=
  if selector = "id".data then
    .ok (db.find? (fun r => r.file_id == value && r.file_extension == ext))
  else if selector = "uid".data then
    .ok (db.find? (fun r => r.file_uid == some value))
  else if selector = "sha256".data then
    .ok (db.find? (fun r => r.file_hash_sha256 == value))
  else .error (.valueError "Unsupported selector".data)

/-- `UriResolver._resolve_by_selector`: unknown selector fails as
`ValueError`; a recognized selector with no matching row fails as
`LookupError`; a hit is projected into a `ResolvedTarget` whose
location is reconstructed from the stored URI. -/
def _resolve_by_selector (db : List FilesDbRecord)
    (selector value ext : Str) : Except ResolveError ResolvedTarget :=
  match selectorLookup db selector value ext with
  | .error e => .error e
  | .ok none => .error (.lookupError "Resource not found".data)
  | .ok (some row) =>
    .ok { status := .OK
          file_id := row.file_id
          file_extension := row.file_extension
          file_kind := some row.file_kind
          title := some row.title
          file_location := some (FileLocation.from_uri row.file_uri none)
          file_type := some .REGULAR }

/-- Body of `UriResolver.resolve` after the single `urlparse` call:
scheme must be exactly `pkms`, the path must be exactly
`file/<selector-part>`, the selector part must contain `:` and the rest
a `.` splitting value from the mandatory extension; value and extension
are lower-cased, the extension regains its leading dot. -/
def resolveParsed (db : List FilesDbRecord) (parsed : UrlParts) :
    Except ResolveError ResolvedTarget :=
  if parsed.scheme ≠ "pkms".data then
    .error (.valueError "Unsupported URI scheme".data)
  else
    match pathParts parsed.path with
    | [resource, selector_part] =>
      if resource ≠ "file".data then
        .error (.valueError "Unsupported PKMS resource".data)
      else
        match splitOnceChar ':' selector_part with
        | none => .error (.valueError "Missing selector in PKMS URI".data)
        | some (selector, rest) =>
          match splitOnceChar '.' rest with
          | none => .error (.valueError "File extension is required".data)
          | some (v, e) =>
            _resolve_by_selector db selector (toLowerStr v) ('.' :: toLowerStr e)
    | _ => .error (.valueError "Invalid PKMS path".data)

/-- `UriResolver.resolve`: parse the URI, then resolve its parts. -/
def resolve (db : List FilesDbRecord) (uri : Str) :
    Except ResolveError ResolvedTarget :=
  resolveParsed db (urlparseModel uri)

/-- C6: a scheme other than `pkms`, a resource other than `file`, or a
selector outside {id, uid, sha256} each fail as `ValueError` (malformed
URI); a well-formed URI whose lookup finds no row fails as
`LookupError` (not found); the two kinds are distinct constructors, and
an unknown selector in particular is malformed-URI, never not-found. -/
theorem resolve_error_kinds :
    (∀ (db : List FilesDbRecord) (uri : Str),
      (urlparseModel uri).scheme ≠ "pkms".data →
      resolve db uri = .error (.valueError "Unsupported URI scheme".data)) ∧
    (∀ (db : List FilesDbRecord) (uri : Str) (resource selector_part : Str),
      (urlparseModel uri).scheme = "pkms".data →
      pathParts (urlparseModel uri).path = [resource, selector_part] →
      resource ≠ "file".data →
      resolve db uri = .error (.valueError "Unsupported PKMS resource".data)) ∧
    (∀ (db : List FilesDbRecord) (uri : Str) (selector_part selector rest v e : Str),
      (urlparseModel uri).scheme = "pkms".data →
      pathParts (urlparseModel uri).path = ["file".data, selector_part] →
      splitOnceChar ':' selector_part = some (selector, rest) →
      splitOnceChar '.' rest = some (v, e) →
      selector ≠ "id".data → selector ≠ "uid".data → selector ≠ "sha256".data →
      resolve db uri = .error (.valueError "Unsupported selector".data)) ∧
    (∀ (db : List FilesDbRecord) (uri : Str) (selector_part selector rest v e : Str),
      (urlparseModel uri).scheme = "pkms".data →
      pathParts (urlparseModel uri).path = ["file".data, selector_part] →
      splitOnceChar ':' selector_part = some (selector, rest) →
      splitOnceChar '.' rest = some (v, e) →
      selectorLookup db selector (toLowerStr v) ('.' :: toLowerStr e) = .ok none →
      resolve db uri = .error (.lookupError "Resource not found".data)) ∧
    (∀ m m' : Str, ResolveError.valueError m ≠ ResolveError.lookupError m') := by
  refine ⟨?_, ?_, ?_, ?_, ?_⟩
  · intro db uri hs
    unfold resolve
    generalize urlparseModel uri = parsed at hs ⊢
    unfold resolveParsed
    rw [if_pos hs]
  · intro db uri resource selector_part hs hp hr
    unfold resolve
    generalize urlparseModel uri = parsed at hs hp ⊢
    unfold resolveParsed
    rw [if_neg (by simp [hs])]
    simp only [hp]
    rw [if_pos hr]
  · intro db uri selector_part selector rest v e hs hp hsel hdot h1 h2 h3
    unfold resolve
    generalize urlparseModel uri = parsed at hs hp ⊢
    unfold resolveParsed
    rw [if_neg (by simp [hs])]
    simp only [hp]
    rw [if_neg (by simp)]
    simp only [hsel, hdot, _resolve_by_selector, selectorLookup]
    rw [if_neg h1, if_neg h2, if_neg h3]
  · intro db uri selector_part selector rest v e hs hp hsel hdot hlook
    unfold resolve
    generalize urlparseModel uri = parsed at hs hp ⊢
    unfold resolveParsed
    rw [if_neg (by simp [hs])]
    simp only [hp]
    rw [if_neg (by simp)]
    simp only [hsel, hdot, _resolve_by_selector]
    rw [hlook]
  · intro m m'
    simp

/-- Closed-form application of `resolve_error_kinds` at concrete URIs:
a non-pkms scheme, a non-file resource, an unknown selector, and a
well-formed id miss over the empty table. -/
theorem resolve_error_kinds_witness :
    resolve [] "http://x/file/id:a.b".data =
      .error (.valueError "Unsupported URI scheme".data) ∧
    resolve [] "pkms:///dir/id:a.b".data =
      .error (.valueError "Unsupported PKMS resource".data) ∧
    resolve [] "pkms:///file/zzz:a.b".data =
      .error (.valueError "Unsupported selector".data) ∧
    resolve [] "pkms:///file/id:abc123.html".data =
      .error (.lookupError "Resource not found".data) :=
  ⟨resolve_error_kinds.1 [] "http://x/file/id:a.b".data (by decide),
   resolve_error_kinds.2.1 [] "pkms:///dir/id:a.b".data "dir".data "id:a.b".data
     (by decide) (by decide) (by decide),
   resolve_error_kinds.2.2.1 [] "pkms:///file/zzz:a.b".data "zzz:a.b".data
     "zzz".data "a.b".data "a".data "b".data
     (by decide) (by decide) (by decide) (by decide) (by decide) (by decide) (by decide),
   resolve_error_kinds.2.2.2.1 [] "pkms:///file/id:abc123.html".data
     "id:abc123.html".data "id".data "abc123.html".data "abc123".data "html".data
     (by decide) (by decide) (by decide) (by decide) (by decide)⟩

/-! ## FileLocation filesystem projection (core/model/_FileLocation.py)

`os.path.normpath` (host-dependent in the source) is modeled by the
normpath of the respective path convention, i.e. the matching host;
`pathlib.PurePosixPath` / `PureWindowsPath` parsing is modeled after
their flavour `splitroot` plus the component filter that drops empty
and `.` entries. -/

/-- Python `posixpath.normpath`: leading-slash count (two slashes kept
as such, any other run collapsed), components filtered of `` and `.`,
`..` cancelling the previous component (absolute paths drop leading
`..`). -/
def posixInitialSlashes (path : Str) : Nat :=
  if path.take 1 = ['/'] then
    if path.take 2 = ['/', '/'] ∧ ¬ path.take 3 = ['/', '/', '/'] then 2 else 1
  else 0

/-- One step of the `posixpath.normpath` component loop. -/
def posixNormStep (initialSlashes : Nat) (acc : List Str) (comp : Str) : List Str :=
  if comp = [] ∨ comp = ['.'] then acc
  else if comp ≠ ['.', '.'] ∨ (initialSlashes = 0 ∧ acc = []) ∨
      (acc ≠ [] ∧ acc.getLast? = some ['.', '.']) then acc ++ [comp]
  else if acc ≠ [] then acc.dropLast
  else acc

/-- `posixpath.normpath`. -/
def posixNormpath (path : Str) : Str :=
  if path = [] then ['.']
  else
    let initialSlashes := posixInitialSlashes path
    let comps := splitOnChar '/' path
    let newComps := comps.foldl (posixNormStep initialSlashes) []
    let res := List.replicate initialSlashes '/' ++ joinWith '/' newComps
    if res = [] then ['.'] else res

/-- pathlib's posix `splitroot`: a leading run of exactly two slashes is
the implementation-defined root `//`, any other leading run collapses
to `/`; the remainder has the leading slashes stripped. -/
def posixSplitRoot (p : Str) : Str × Str :=
  if p.take 1 = ['/'] then
    let stripped := p.dropWhile (fun c => c == '/')
    let root := if p.length - stripped.length = 2 then ['/', '/'] else ['/']
    (root, stripped)
  else ([], p)

/-- pathlib's component parse: split on `/`, dropping empty and `.`. -/
def posixParseComps (rel : Str) : List Str :=
  (splitOnChar '/' rel).filter (fun x => ! (x == [] || x == ['.']))

/-- `PureWindowsPath` separator normalization. -/
def toBackslashes (p : Str) : Str := p.map (fun c => if c = '/' then '\\' else c)

/-- Python `str.upper()` (ASCII). -/
def toUpperStr (s : Str) : Str := s.map Char.toUpper

/-- First index of `c` in `s` at position `start` or later. -/
def findIdxFrom (s : Str) (c : Char) (start : Nat) : Option Nat :=
  match (s.drop start).findIdx? (fun ch => ch == c) with
  | some j => some (start + j)
  | none => none

/-- `ntpath.splitroot`: (drive, root, rest) — UNC `\\server\share`
drives, rooted relative paths `\Windows`, drive-letter paths `X:\...`
and `X:...`; slices are taken from the original string (separators
preserved), classification runs on the backslash-normalized copy. -/
def windowsSplitRoot (p : Str) : Str × Str × Str :=
  let normp := toBackslashes p
  if normp.take 1 = ['\\'] then
    if normp.take 2 = ['\\', '\\'] then
      let start := if toUpperStr (normp.take 8) = "\\\\?\\UNC\\".data then 8 else 2
      match findIdxFrom normp '\\' start with
      | none => (p, [], [])
      | some index =>
        match findIdxFrom normp '\\' (index + 1) with
        | none => (p, [], [])
        | some index2 => (p.take index2, (p.drop index2).take 1, p.drop (index2 + 1))
    else ([], p.take 1, p.drop 1)
  else if (normp.drop 1).take 1 = [':'] then
    if (normp.drop 2).take 1 = ['\\'] then (p.take 2, (p.drop 2).take 1, p.drop 3)
    else (p.take 2, [], p.drop 2)
  else ([], [], p)

/-- One step of the `ntpath.normpath` component loop. -/
def ntNormStep (rootPresent : Bool) (acc : List Str) (comp : Str) : List Str :=
  if comp = [] ∨ comp = ['.'] then acc
  else if comp = ['.', '.'] then
    if acc ≠ [] ∧ acc.getLast? ≠ some ['.', '.'] then acc.dropLast
    else if acc = [] ∧ rootPresent then acc
    else acc ++ [comp]
  else acc ++ [comp]

/-- `ntpath.normpath`: special `\\?\` and `\\.\` prefixes are returned
unchanged; otherwise separators are normalized to `\`, the drive/root
split off, and components folded. -/
def windowsNormpath (p : Str) : Str :=
  if p.take 4 = "\\\\?\\".data ∨ p.take 4 = "\\\\.\\".data then p
  else
    let path := toBackslashes p
    let (drive, root, rest) := windowsSplitRoot path
    let comps := splitOnChar '\\' rest
    let newComps := comps.foldl (ntNormStep (! (root == []))) []
    if drive = [] ∧ root = [] ∧ newComps = [] then ['.']
    else drive ++ root ++ joinWith '\\' newComps

/-- `PureWindowsPath(p)`: (drive, root, components). -/
def pureWindowsParts (p : Str) : Str × Str × List Str :=
  let q := toBackslashes p
  let (d, r, rest) := windowsSplitRoot q
  (d, r, (splitOnChar '\\' rest).filter (fun x => ! (x == [] || x == ['.'])))

namespace FileLocation

/-- `FileLocation._filesystem_path_to_segments`, posix flavour:
`parts[0]` (the root) is split on `/`, a leading empty piece stripped,
a trailing empty piece popped when more parts follow; an absolute path
contributes the `None` marker. -/
def _filesystem_path_to_segments_posix (p : Str) : List Seg :=
  let (root, rel) := posixSplitRoot p
  let comps := posixParseComps rel
  let parts : List Str := (if root = [] then [] else [root]) ++ comps
  match parts with
  | [] => []
  | p0 :: rest =>
    let front_segments : List Seg := if root ≠ [] then [none] else []
    let fp0 := splitOnChar '/' p0
    let fp1 := if fp0.head? = some [] then fp0.tail else fp0
    let fp2 := if rest ≠ [] ∧ fp1 ≠ [] ∧ fp1.getLast? = some [] then fp1.dropLast
               else fp1
    front_segments ++ fp2.map some ++ rest.map some

/-- `FileLocation._filesystem_path_to_segments`, windows flavour:
`parts[0]` is drive+root with `\` replaced by `/` before the split. -/
def _filesystem_path_to_segments_windows (p : Str) : List Seg :=
  let (d, r, comps) := pureWindowsParts p
  let isAbs := ! (d == []) && ! (r == [])
  let parts : List Str := (if d ++ r = [] then [] else [d ++ r]) ++ comps
  match parts with
  | [] => []
  | p0 :: rest =>
    let front_segments : List Seg := if isAbs then [none] else []
    let fp0 := splitOnChar '/' (p0.map (fun c => if c = '\\' then '/' else c))
    let fp1 := if fp0.head? = some [] then fp0.tail else fp0
    let fp2 := if rest ≠ [] ∧ fp1 ≠ [] ∧ fp1.getLast? = some [] then fp1.dropLast
               else fp1
    front_segments ++ fp2.map some ++ rest.map some

/-- `FileLocation._segments_to_filesystem_path`: absolute segments are
joined after the marker, with a leading `/` for posix only; the join
separator is `/` for both conventions. -/
def _segments_to_filesystem_path (segments : List Seg)
    (conv : PathConvention) : Str :=
  if segments_is_absolute segments then
    if conv = .windows then joinWith '/' (segments.tail.map (fun s => s.getD []))
    else '/' :: joinWith '/' (segments.tail.map (fun s => s.getD []))
  else joinWith '/' (segments.map (fun s => s.getD []))

/-- `FileLocation.to_filesystem_path`. -/
def to_filesystem_path (fl : FileLocation) (conv : PathConvention) : Str :=
  _segments_to_filesystem_path fl.segments conv

/-- `FileLocation.from_filesystem_path(path, path_convention=conv)`
with default arguments (`base_path=None`, `scheme='file'`,
`authority=''`, `absolute=False`, `normalize=True`): normalize, then
`_split_path` with an empty base — which demands an absolute path
(`ValueError` otherwise) and makes `base_segments` empty. -/
def from_filesystem_path (path : Str) (conv : PathConvention) :
    Except Str FileLocation :=
  let path := if path ≠ [] then
      (match conv with
       | .posix => posixNormpath path
       | .windows => windowsNormpath path)
    else path
  let isAbs : Bool := match conv with
    | .posix => ! ((posixSplitRoot path).1 == [])
    | .windows => ! ((pureWindowsParts path).1 == []) &&
                  ! ((pureWindowsParts path).2.1 == [])
  if ¬ isAbs then .error "path MUST be absolute when base is empty".data
  else
    .ok { scheme := "file".data, authority := some [],
          base_segments := [],
          sub_segments :=
            match conv with
            | .posix => _filesystem_path_to_segments_posix path
            | .windows => _filesystem_path_to_segments_windows path }

end FileLocation

/-- C1 as stated fails for the windows convention: the windows
projection joins segments with `/`, so for `p = "C:\a"` — a fixpoint of
both conventions' normpath — the round trip returns `"C:/a"`, not the
normalized form `"C:\a"`. -/
theorem roundtrip_windows_counterexample :
    ((FileLocation.from_filesystem_path "C:\\a".data .windows).map
        (fun fl => fl.to_filesystem_path .windows) = .ok "C:/a".data) ∧
    windowsNormpath "C:\\a".data = "C:\\a".data ∧
    posixNormpath "C:\\a".data = "C:\\a".data ∧
    "C:/a".data ≠ "C:\\a".data :=
  ⟨by decide, by decide, by decide, by decide⟩

/-! ### The posix round-trip law

For every path accepted by `from_filesystem_path(p, path_convention=
"posix")`, projecting back with the posix convention yields exactly
`posixpath.normpath(p)`. The proof characterizes the output of
`posixNormpath` (one or two leading slashes followed by slash-free
components none of which is empty, `.` or `..`) and shows the parse /
unparse pair is the identity on that normal form. -/

/-- Well-formedness of a component of a normalized absolute posix path
(for `k = 0`, i.e. relative paths, `..` components may survive). -/
def normComp (k : Nat) (c : Str) : Prop :=
  c ≠ [] ∧ c ≠ ['.'] ∧ '/' ∉ c ∧ (1 ≤ k → c ≠ ['.', '.'])

theorem posixNormStep_preserves (k : Nat) (acc : List Str) (comp : Str)
    (hacc : ∀ c ∈ acc, normComp k c) (hcomp : '/' ∉ comp) :
    ∀ c ∈ posixNormStep k acc comp, normComp k c := by
  intro c hc
  unfold posixNormStep at hc
  split at hc
  · exact hacc c hc
  · rename_i hguard
    split at hc
    · rename_i happend
      rcases List.mem_append.mp hc with h | h
      · exact hacc c h
      · rw [List.mem_singleton] at h
        subst h
        push_neg at hguard
        refine ⟨hguard.1, hguard.2, hcomp, ?_⟩
        intro hk
        rcases happend with h' | h' | h'
        · exact h'
        · omega
        · exfalso
          rcases h' with ⟨hne, hlast⟩
          rcases List.getLast?_eq_getLast _ hne ▸ hlast with hl
          have hmem := List.getLast_mem hne
          have := (hacc _ hmem).2.2.2 hk
          exact this (Option.some.inj hl)
    · split at hc
      · exact hacc c (List.dropLast_subset _ hc)
      · exact hacc c hc

theorem posixNormFold_good (k : Nat) (comps : List Str)
    (hcomps : ∀ c ∈ comps, '/' ∉ c) :
    ∀ (acc : List Str), (∀ c ∈ acc, normComp k c) →
      ∀ c ∈ comps.foldl (posixNormStep k) acc, normComp k c := by
  induction comps with
  | nil => intro acc hacc c hc; exact hacc c hc
  | cons x xs ih =>
    intro acc hacc c hc
    rw [List.foldl_cons] at hc
    exact ih (fun d hd => hcomps d (List.mem_cons_of_mem x hd))
      (posixNormStep k acc x)
      (posixNormStep_preserves k acc x hacc (hcomps x (List.mem_cons_self _ _)))
      c hc

theorem posixInitialSlashes_cases (p : Str) :
    posixInitialSlashes p = 0 ∨ posixInitialSlashes p = 1 ∨
    posixInitialSlashes p = 2 := by
  unfold posixInitialSlashes
  split
  · split
    · right; right; rfl
    · right; left; rfl
  · left; rfl

theorem joinWith_cons_eq_append (sep : Char) (c : Str) (rest : List Str) :
    ∃ t, joinWith sep (c :: rest) = c ++ t := by
  cases rest with
  | nil => exact ⟨[], by simp [joinWith]⟩
  | cons y ys => exact ⟨sep :: joinWith sep (y :: ys), rfl⟩

theorem dropWhile_slash_replicate_append (k : Nat) (s : Str) :
    List.dropWhile (fun c => c == '/') (List.replicate k '/' ++ s) =
      List.dropWhile (fun c => c == '/') s := by
  induction k with
  | zero => simp
  | succ k ih => simpa [List.replicate_succ, List.dropWhile] using ih

/-- `posixNormpath` on a path with at least one leading slash produces
its slash prefix followed by the folded components. -/
theorem posixNormpath_eq_of_abs (p : Str) (hp : p ≠ [])
    (hk : 1 ≤ posixInitialSlashes p) :
    posixNormpath p = List.replicate (posixInitialSlashes p) '/' ++
      joinWith '/' ((splitOnChar '/' p).foldl
        (posixNormStep (posixInitialSlashes p)) []) := by
  have hne : ∀ (k : Nat) (t : Str), 1 ≤ k → List.replicate k '/' ++ t ≠ [] := by
    intro k t hk1
    cases k with
    | zero => omega
    | succ j => simp [List.replicate_succ]
  unfold posixNormpath
  rw [if_neg hp, if_neg (hne _ _ hk)]

/-- A relative path never normalizes to a string starting with `/`. -/
theorem posixNormpath_not_abs (p : Str) (h0 : posixInitialSlashes p = 0) :
    (posixNormpath p).take 1 ≠ ['/'] := by
  by_cases hp : p = []
  · subst hp; decide
  have hgood := posixNormFold_good 0 (splitOnChar '/' p)
    (fun c hc => not_mem_of_mem_splitOnChar '/' p c hc) [] (by simp)
  unfold posixNormpath
  rw [if_neg hp]
  simp only [h0, List.replicate_zero, List.nil_append]
  cases hfold : (splitOnChar '/' p).foldl (posixNormStep 0) [] with
  | nil => simp [joinWith]
  | cons c rest =>
    have hcmem : c ∈ (splitOnChar '/' p).foldl (posixNormStep 0) [] := by
      rw [hfold]; exact List.mem_cons_self c rest
    have hc := hgood c hcmem
    obtain ⟨t, ht⟩ := joinWith_cons_eq_append '/' c rest
    rw [ht]
    cases c with
    | nil => exact absurd rfl hc.1
    | cons ch c' =>
      have hch : ch ≠ '/' := fun h => hc.2.2.1 (h ▸ List.mem_cons_self _ _)
      rw [if_neg (by simp)]
      simp [List.take, hch]

/-- Shape of `posixNormpath` output on an accepted (absolute) input:
one or two slashes, then well-formed components. -/
theorem posixNormpath_shape (p : Str) (hp : p ≠ [])
    (habs : (posixNormpath p).take 1 = ['/']) :
    ∃ (k : Nat) (cs : List Str), (k = 1 ∨ k = 2) ∧
      (∀ c ∈ cs, c ≠ [] ∧ c ≠ ['.'] ∧ c ≠ ['.', '.'] ∧ '/' ∉ c) ∧
      posixNormpath p = List.replicate k '/' ++ joinWith '/' cs := by
  have hk : 1 ≤ posixInitialSlashes p := by
    rcases posixInitialSlashes_cases p with h0 | h1 | h2
    · exact absurd habs (posixNormpath_not_abs p h0)
    · omega
    · omega
  refine ⟨posixInitialSlashes p,
    (splitOnChar '/' p).foldl (posixNormStep (posixInitialSlashes p)) [], ?_, ?_, ?_⟩
  · rcases posixInitialSlashes_cases p with h0 | h1 | h2
    · omega
    · exact Or.inl h1
    · exact Or.inr h2
  · intro c hc
    have hg := posixNormFold_good (posixInitialSlashes p) (splitOnChar '/' p)
      (fun d hd => not_mem_of_mem_splitOnChar '/' p d hd) [] (by simp) c hc
    exact ⟨hg.1, hg.2.1, hg.2.2.2 hk, hg.2.2.1⟩
  · exact posixNormpath_eq_of_abs p hp hk

theorem dropWhile_join_normal (cs : List Str)
    (hcs : ∀ c ∈ cs, c ≠ [] ∧ '/' ∉ c) :
    List.dropWhile (fun c => c == '/') (joinWith '/' cs) = joinWith '/' cs := by
  cases cs with
  | nil => rfl
  | cons c rest =>
    obtain ⟨t, ht⟩ := joinWith_cons_eq_append '/' c rest
    rw [ht]
    rcases hcs c (List.mem_cons_self _ _) with ⟨hne, hslash⟩
    cases c with
    | nil => exact absurd rfl hne
    | cons ch c' =>
      have hch : ch ≠ '/' := fun h => hslash (h ▸ List.mem_cons_self _ _)
      simp [List.dropWhile_cons, hch]

/-- `posixSplitRoot` recovers the slash prefix and body of the normal
form. -/
theorem posixSplitRoot_normal (k : Nat) (cs : List Str) (hk : k = 1 ∨ k = 2)
    (hcs : ∀ c ∈ cs, c ≠ [] ∧ c ≠ ['.'] ∧ c ≠ ['.', '.'] ∧ '/' ∉ c) :
    posixSplitRoot (List.replicate k '/' ++ joinWith '/' cs) =
      (List.replicate k '/', joinWith '/' cs) := by
  have hdrop : List.dropWhile (fun c => c == '/')
      (List.replicate k '/' ++ joinWith '/' cs) = joinWith '/' cs := by
    rw [dropWhile_slash_replicate_append]
    exact dropWhile_join_normal cs (fun c hc => ⟨(hcs c hc).1, (hcs c hc).2.2.2⟩)
  unfold posixSplitRoot
  rcases hk with rfl | rfl
  · rw [if_pos (by simp [List.replicate_one])]
    simp only [hdrop]
    rw [if_neg (by simp [List.length_append, List.length_replicate])]
    rfl
  · rw [if_pos (by simp [List.replicate_succ])]
    simp only [hdrop]
    rw [if_pos (by simp only [List.length_append, List.length_replicate]; omega)]
    rfl

/-- The pathlib component parse recovers the components of the normal
form body. -/
theorem posixParseComps_join_normal (cs : List Str)
    (hcs : ∀ c ∈ cs, c ≠ [] ∧ c ≠ ['.'] ∧ c ≠ ['.', '.'] ∧ '/' ∉ c) :
    posixParseComps (joinWith '/' cs) = cs := by
  cases cs with
  | nil => rfl
  | cons c rest =>
    unfold posixParseComps
    rw [splitOnChar_joinWith '/' (c :: rest) (by simp)
      (fun d hd => (hcs d hd).2.2.2)]
    rw [List.filter_eq_self.mpr]
    intro a ha
    simp [(hcs a ha).1, (hcs a ha).2.1]

theorem map_comp_getD (l : List Str) :
    l.map ((fun s : Seg => s.getD []) ∘ some) = l := by
  induction l with
  | nil => rfl
  | cons x xs ih => simp [ih, Function.comp]

/-- Projection of an absolute segment list under the posix convention. -/
theorem segments_to_fs_posix_abs (xs : List Str) :
    FileLocation._segments_to_filesystem_path (none :: xs.map some) .posix =
      '/' :: joinWith '/' xs := by
  unfold FileLocation._segments_to_filesystem_path
  rw [if_pos (by rfl), if_neg (by decide)]
  simp [List.map_map, map_comp_getD]

/-- Projection of an absolute segment list with the extra empty segment
produced by a `//` root. -/
theorem segments_to_fs_posix_abs2 (xs : List Str) :
    FileLocation._segments_to_filesystem_path
      (none :: some [] :: xs.map some) .posix =
      '/' :: joinWith '/' ([] :: xs) := by
  unfold FileLocation._segments_to_filesystem_path
  rw [if_pos (by rfl), if_neg (by decide)]
  simp [List.map_map, map_comp_getD]

/-- Parsing the normal form into segments and projecting back is the
identity. -/
theorem roundtrip_normal (k : Nat) (cs : List Str) (hk : k = 1 ∨ k = 2)
    (hcs : ∀ c ∈ cs, c ≠ [] ∧ c ≠ ['.'] ∧ c ≠ ['.', '.'] ∧ '/' ∉ c) :
    FileLocation._segments_to_filesystem_path
      (FileLocation._filesystem_path_to_segments_posix
        (List.replicate k '/' ++ joinWith '/' cs)) .posix =
      List.replicate k '/' ++ joinWith '/' cs := by
  have hsplit := posixSplitRoot_normal k cs hk hcs
  have hcomps := posixParseComps_join_normal cs hcs
  rcases hk with rfl | rfl
  · cases cs with
    | nil => decide
    | cons c rest =>
      have hseg : FileLocation._filesystem_path_to_segments_posix
          (List.replicate 1 '/' ++ joinWith '/' (c :: rest)) =
          none :: (c :: rest).map some := by
        unfold FileLocation._filesystem_path_to_segments_posix
        simp only [hsplit, hcomps]
        simp [splitOnChar, List.replicate_one]
      rw [hseg, segments_to_fs_posix_abs]
      simp [List.replicate_one]
  · cases cs with
    | nil => decide
    | cons c rest =>
      have hseg : FileLocation._filesystem_path_to_segments_posix
          (List.replicate 2 '/' ++ joinWith '/' (c :: rest)) =
          none :: some [] :: (c :: rest).map some := by
        unfold FileLocation._filesystem_path_to_segments_posix
        simp only [hsplit, hcomps]
        simp [splitOnChar, List.replicate_succ]
      rw [hseg, segments_to_fs_posix_abs2]
      show '/' :: ([] ++ '/' :: joinWith '/' (c :: rest)) = _
      simp [List.replicate_succ, List.replicate_one]

theorem posixSplitRoot_fst_ne_nil (q : Str) :
    (posixSplitRoot q).1 ≠ [] ↔ q.take 1 = ['/'] := by
  unfold posixSplitRoot
  split
  · rename_i h
    constructor
    · intro _; exact h
    · intro _
      by_cases hlen : q.length - (List.dropWhile (fun c => c == '/') q).length = 2
      · simp [hlen]
      · simp [hlen]
  · rename_i h
    simp [h]

theorem segments_join_nil (s : List Seg) :
    FileLocation.segments_join [] s = s := by
  unfold FileLocation.segments_join
  split <;> simp

/-- C1 amended, posix direction: every path `p` accepted by
`from_filesystem_path(p, path_convention="posix")` (exactly the paths
that are absolute after normalization) projects back under the posix
convention to exactly `posixpath.normpath(p)`. -/
theorem from_to_filesystem_path_posix (p : Str) (fl : FileLocation)
    (h : FileLocation.from_filesystem_path p .posix = .ok fl) :
    fl.to_filesystem_path .posix = posixNormpath p := by
  by_cases hp : p = []
  · subst hp
    rw [show FileLocation.from_filesystem_path [] .posix =
      .error "path MUST be absolute when base is empty".data from by decide] at h
    exact absurd h (by simp)
  · simp only [FileLocation.from_filesystem_path] at h
    rw [if_pos hp] at h
    by_cases habs : (posixSplitRoot (posixNormpath p)).1 = []
    · rw [if_pos (by simp [habs])] at h
      exact absurd h (by simp)
    · rw [if_neg (by simp [habs])] at h
      obtain rfl := Except.ok.inj h
      have htake : (posixNormpath p).take 1 = ['/'] :=
        (posixSplitRoot_fst_ne_nil _).mp habs
      obtain ⟨k, cs, hk, hcs, heq⟩ := posixNormpath_shape p hp htake
      unfold FileLocation.to_filesystem_path FileLocation.segments
      simp only [segments_join_nil]
      rw [heq]
      exact roundtrip_normal k cs hk hcs

/-- Closed-form application of `from_to_filesystem_path_posix` at
`p = "/a/b/../c//"`, which normalizes to `/a/c`. -/
theorem from_to_filesystem_path_posix_witness :
    FileLocation.to_filesystem_path
      { scheme := "file".data, authority := some [], base_segments := [],
        sub_segments := [none, some "a".data, some "c".data] } .posix =
      posixNormpath "/a/b/../c//".data :=
  from_to_filesystem_path_posix "/a/b/../c//".data
    { scheme := "file".data, authority := some [], base_segments := [],
      sub_segments := [none, some "a".data, some "c".data] } (by decide)

/-! ## SimpleScreener (component/screener/_SimpleScreener.py) and
parse_file_name (core/utility/__init__.py)

The screener runs on a posix host (`os.name != 'nt'`), so paths use the
posix convention and `pathlib.Path(...).name` follows posix parsing.
`Path.stat` and `get_file_hash_sha256` touch the filesystem; their
outcomes per path are an oracle input. -/

/-- `pathlib.Path(file_path).name` on a posix host: the last component
beyond the root, or the empty string. -/
def pathName (file_path : Str) : Str :=
  match (posixParseComps (posixSplitRoot file_path).2).getLast? with
  | some n => n
  | none => []

/-- Modelled from the spec: `FileStamp` — the screening output
`{id, uid?, extension, kind, title, importance, size, created/modified
timestamps, content hash, metadata}`; its class definition
(`core/model/_FileStamp.py`) is imported by the source but not present
under `src/`. The hash is optional because `get_file_hash_sha256`
returns `None` on a caught IO failure. -/
structure FileStamp where
  id : Str
  uid : Option Str
  extension : Str
  kind : Str
  title : Str
  importance : Int
  size : Int
  created_datetime : Str
  modified_datetime : Str
  hash_sha256 : Option Str
  metadata : List (Str × Str)
deriving DecidableEq, Repr

/-- The `ScreeningStatus` enum. -/
inductive ScreeningStatus
  | APPROVED
  | REJECTED
  | ESCALATED
deriving DecidableEq, Repr

/-- The `ScreeningResult` constructed by the screener (the source
passes `file_stamp=`; the pydantic model declares `admitted` and
ignores the unknown keyword, which does not affect the claims here). -/
structure ScreeningResult where
  status : ScreeningStatus
  file_location : FileLocation
  file_stamp : Option FileStamp
  reason : Option Str
deriving DecidableEq, Repr

/-- The dictionary produced by `parse_file_name`. -/
structure ParsedFileName where
  name : Str
  id : Str
  importance : Nat
  title : Str
  context : Option Str
  extension : Str
deriving DecidableEq, Repr

/-- `[_a-zA-Z0-9]`, the character class of the extension group. -/
def isWordChar (c : Char) : Bool := c.isAlpha || c.isDigit || c == '_'

/-- Whether a string matches the extension group
`((:?\.[_a-zA-Z0-9]*)*)$` in full: a sequence of units, each an
optional `:` then `.` then word characters (fuel only makes the
recursion structural; each unit consumes at least one character). -/
def extSuffixCheckFuel : Nat → Str → Bool
  | _, [] => true
  | 0, _ => false
  | f+1, ':' :: '.' :: rest => extSuffixCheckFuel f (rest.dropWhile isWordChar)
  | f+1, '.' :: rest => extSuffixCheckFuel f (rest.dropWhile isWordChar)
  | _+1, _ => false

/-- The extension captured by `parse_file_name`: the lazy `[\s\S]*?`
before the group starts the group as early as possible, so the
extension is the suffix at the smallest index that matches the group
grammar in full (the whole-name index always matches the empty
suffix). -/
def extensionSuffix (name : Str) : Str :=
  match (List.range (name.length + 1)).find?
      (fun i => extSuffixCheckFuel name.length (name.drop i)) with
  | some i => name.drop i
  | none => []

/-- `parse_file_name`: the regex
`^([\S]*)\s+(!*)\s*(?:([^\{.]*))(?:{([^}]*)})?[\s\S]*?((:?\.[_a-zA-Z0-9]*)*)$`
matches the basename iff it contains a whitespace character (`([\S]*)`
is forced to the non-whitespace run before the first whitespace, `\s+`
consumes that whitespace run, and every later piece can match the empty
string while `[\s\S]*?` absorbs the remainder); on no-match the
function raises `RuntimeError`. The groups are read greedily after the
whitespace run: the `!` run, optional whitespace, the title run (up to
`{` or `.`), the optional brace-enclosed context, and the trailing
extension suffix. -/
def parse_file_name (file_path : Str) : Except Str ParsedFileName :=
  let name := pathName file_path
  if ¬ name.any isSpaceChar then
    .error "Parsing file_id failed".data
  else
    let id := name.takeWhile (fun c => ! isSpaceChar c)
    let afterId := name.drop id.length
    let afterSpace := afterId.dropWhile isSpaceChar
    let importanceRun := afterSpace.takeWhile (fun c => c == '!')
    let afterImp := (afterSpace.drop importanceRun.length).dropWhile isSpaceChar
    let title := afterImp.takeWhile (fun c => ! (c == '{' || c == '.'))
    let afterTitle := afterImp.drop title.length
    let context : Option Str :=
      match afterTitle with
      | '{' :: rest =>
        let inner := rest.takeWhile (fun c => ! (c == '}'))
        if (rest.drop inner.length).take 1 = ['}'] then some inner else none
      | _ => none
    .ok { name := name, id := id, importance := importanceRun.length,
          title := title, context := context,
          extension := extensionSuffix name }

/-- Result of `Path.stat()` as the screener consumes it (the
timestamp-to-ISO conversions already applied). -/
structure StatResult where
  ctime_iso : Str
  mtime_iso : Str
  size : Int
deriving DecidableEq, Repr

/-- Filesystem oracle: per-path outcomes of `Path.stat()` and
`get_file_hash_sha256` (`Except.error` is a raised exception; a `none`
hash is the caught-IO-failure `None` return). -/
structure FsOracle where
  statR : Str → Except Str StatResult
  hashR : Str → Except Str (Option Str)

/-- Per-candidate body of `SimpleScreener.screen`. The
`parse_file_name` call sits OUTSIDE the `try` block in the source, so
its `RuntimeError` propagates out of `screen`; the stat and hash steps
run inside the `try` and turn their exceptions into a REJECTED result
with the stringified reason. -/
def screenOne (env : FsOracle) (file_location : FileLocation) :
    Except Str ScreeningResult :=
  let file_path := file_location.to_filesystem_path .posix
  match parse_file_name file_path with
  | .error e => .error e
  | .ok parsed =>
    match env.statR file_path with
    | .error e =>
      .ok { status := .REJECTED, file_location := file_location,
            file_stamp := none, reason := some e }
    | .ok st =>
      match env.hashR file_path with
      | .error e =>
        .ok { status := .REJECTED, file_location := file_location,
              file_stamp := none, reason := some e }
      | .ok h =>
        .ok { status := .APPROVED, file_location := file_location,
              file_stamp := some
                { id := parsed.id, uid := none,
                  extension := parsed.extension, kind := "snapshot".data,
                  title := parsed.title,
                  importance := (parsed.importance : Int),
                  size := st.size, created_datetime := st.ctime_iso,
                  modified_datetime := st.mtime_iso, hash_sha256 := h,
                  metadata := [] },
              reason := none }

/-- `SimpleScreener.screen`: the per-candidate loop, accumulating one
result per candidate in order; an exception escaping the loop body
aborts the whole batch. -/
def screen (env : FsOracle) : List FileLocation →
    Except Str (List ScreeningResult)
  | [] => .ok []
  | c :: rest =>
    match screenOne env c with
    | .error e => .error e
    | .ok r =>
      match screen env rest with
      | .error e => .error e
      | .ok rs => .ok (r :: rs)

/-- Oracle on which every stat and hash succeeds. -/
def oracleAllOk : FsOracle :=
  { statR := fun _ => .ok { ctime_iso := ['c'], mtime_iso := ['m'], size := 1 },
    hashR := fun _ => .ok (some ['h']) }

/-- Oracle whose stat fails exactly on `/b b.txt`. -/
def oracleStatFailsB : FsOracle :=
  { statR := fun p =>
      if p = "/b b.txt".data then .error "stat failed".data
      else .ok { ctime_iso := ['c'], mtime_iso := ['m'], size := 1 },
    hashR := fun _ => .ok (some ['h']) }

/-- Candidate `/a a.txt` (name contains a space, parseable). -/
def candA : FileLocation :=
  { scheme := "file".data, authority := some [], base_segments := [],
    sub_segments := [none, some "a a.txt".data] }

/-- Candidate `/b b.txt` (parseable). -/
def candB : FileLocation :=
  { scheme := "file".data, authority := some [], base_segments := [],
    sub_segments := [none, some "b b.txt".data] }

/-- Candidate `/nospace.txt`: its basename has no whitespace, so the
filename regex cannot match and `parse_file_name` raises. -/
def candNoSpace : FileLocation :=
  { scheme := "file".data, authority := some [], base_segments := [],
    sub_segments := [none, some "nospace.txt".data] }

/-- C7 fails on the code at the filename-parse step: a mid-batch stat
failure is indeed captured as a REJECTED result with a reason and the
batch returns three results in order — but a mid-batch candidate whose
basename cannot be parsed (no whitespace) makes `screen` raise, because
`parse_file_name` is called outside the per-candidate `try`; the batch
returns no results at all, contradicting the claim that no per-candidate
stat/hash/parse failure propagates. -/
theorem screen_parse_failure_aborts_batch :
    ((screen oracleStatFailsB [candA, candB, candA]).map
      (fun rs => rs.map ScreeningResult.status) =
      .ok [.APPROVED, .REJECTED, .APPROVED]) ∧
    ((screen oracleStatFailsB [candA, candB, candA]).map
      (fun rs => rs.map ScreeningResult.reason) =
      .ok [none, some "stat failed".data, none]) ∧
    screen oracleAllOk [candA, candNoSpace, candA] =
      .error "Parsing file_id failed".data := by
  refine ⟨by decide, by decide, by decide⟩

end PKMS
